import Mathlib

/-
Verification of the ClipGen inference repository's coordination and
distribution logic, as a shallow embedding in Lean.

Embedded code:
- src/clipgen-inference/src/genmo/mochi/patch/triton_pack.py
  (pack_cat_gather / unpack_split_xy, Triton kernel path and eager
  PyTorch fallback path, modelled at the level of rows and elements;
  tensors become functions from indices to Int values)
- src/clipgen-inference/src/genmo/mochi/patch/vae.py
  (decode_latents_tiled_distributed, step 1: torch.tensor_split along time)
- src/clipgen-inference/src/genmo/mochi/vae/cp_conv.py
  (gather_all_frames / _pad_to_max; per-rank tensors become lists of
  frames, a frame being one opaque Int value)
- src/clipgen-inference/src/clipgen/coordinator.py
  (coordinate_pod_work / _wait_for_pod_work_completion; the multi-process
  behaviour is an interleaving small-step machine over a shared
  filesystem state, and the wait loop is additionally embedded as a
  standalone function of an environment trace)
-/

namespace ClipGen

/-! ## Pack / unpack (triton_pack.py)

Tensors `qx : (B, N, h, d)` and `qy : (B, L, h, d)` are modelled as
functions `Nat → Nat → Nat → Int` taking the batch index `b`, the token
position inside the batch, and the flattened feature coordinate
`dd < D` where `D = h * d` (the code itself flattens `h, d` into one
contiguous dimension of size `D` via `.view`). The index list
`valid_token_indices` is a `List Nat`. -/

/-- Row `(b, p)` of `torch.cat([qx, qy], dim=1)`: position `p < N` comes
from `qx`, position `p ≥ N` comes from `qy` at `p - N`. -/

def catRow (N : Nat) (X Y : Nat → Nat → Nat → Int) (b p dd : Nat) : Int :=
  if p < N then X b p dd else Y b (p - N) dd

/-- Eager PyTorch fallback path of `pack_cat_gather`:
`src = torch.cat([qx, qy], dim=1).view(B*(N+L), D)` followed by
`src.index_select(0, idx)`. Flat row `r` of the viewed buffer is row
`(r / (N+L), r % (N+L))` of the concatenation (row-major view), and
output row `t` is flat row `idx[t]`. -/

def pack_fallback (N L : Nat) (X Y : Nat → Nat → Nat → Int)
    (idx : List Nat) (t dd : Nat) : Int :=
  catRow N X Y (idx.getD t 0 / (N + L)) (idx.getD t 0 % (N + L)) dd

/-- Triton kernel path of `pack_cat_gather` (`_pack_two_src_kernel`):
program `t` loads `idx[t]`, decodes `b = idx // (N+L)`,
`pos = idx % (N+L)`, and copies row `pos` of `X[b]` when `pos < N`,
else row `pos - N` of `Y[b]`. -/

def pack_triton (N L : Nat) (X Y : Nat → Nat → Nat → Int)
    (idx : List Nat) (t dd : Nat) : Int :=
  let i := idx.getD t 0
  let b := i / (N + L)
  let pos := i % (N + L)
  if pos < N then X b pos dd else Y b (pos - N) dd

/-- `pack_cat_gather`: dispatches on `USE_TRITON_PACK` (environment /
hardware driven) between the kernel path and the eager fallback. -/

def pack_cat_gather (useTriton : Bool) (N L : Nat)
    (X Y : Nat → Nat → Nat → Int) (idx : List Nat) (t dd : Nat) : Int :=
  if useTriton then pack_triton N L X Y idx t dd
  else pack_fallback N L X Y idx t dd

/-- Index of the first element of the list satisfying `P`, if any. -/

def firstWhere (P : Nat → Bool) : List Nat → Option Nat
  | [] => none
  | i :: rest => if P i then some 0 else (firstWhere P rest).map (· + 1)

/-- Eager fallback path of `unpack_split_xy`, before the final split:
`full = zeros(B*(N+L), D)` followed by `full.index_copy_(0, idx, src)`.
Flat row `r` holds `src[t]` for the `t` with `idx[t] = r` (unique when
the indices are distinct, which the caller guarantees), else zero. -/

def unpack_fallback_full (idx : List Nat) (src : Nat → Nat → Int)
    (r dd : Nat) : Int :=
  match firstWhere (fun i => i == r) idx with
  | some t => src t dd
  | none => 0

/-- `x` half of the fallback unpack: `full.view(B, N+L, D)[:, :N]`,
so `x[b][n] = full_flat[b*(N+L) + n]`. -/

def unpack_fallback_x (N L : Nat) (idx : List Nat)
    (src : Nat → Nat → Int) (b n dd : Nat) : Int :=
  unpack_fallback_full idx src (b * (N + L) + n) dd

/-- `y` half of the fallback unpack: `full.view(B, N+L, D)[:, N:]`,
so `y[b][l] = full_flat[b*(N+L) + N + l]`. -/

def unpack_fallback_y (N L : Nat) (idx : List Nat)
    (src : Nat → Nat → Int) (b l dd : Nat) : Int :=
  unpack_fallback_full idx src (b * (N + L) + N + l) dd

/-- Triton kernel path of `unpack_split_xy` (`_unpack_split_kernel`),
`x` output: `x` starts as zeros and program `t` stores `src[t]` into
`x[b, pos]` when `idx[t]` decodes to `(b, pos)` with `pos < N`. -/

def unpack_triton_x (N L : Nat) (idx : List Nat)
    (src : Nat → Nat → Int) (b n dd : Nat) : Int :=
  match firstWhere
      (fun i => i / (N + L) == b && (decide (i % (N + L) < N) &&
        i % (N + L) == n)) idx with
  | some t => src t dd
  | none => 0

/-- Triton kernel path of `unpack_split_xy`, `y` output: program `t`
stores `src[t]` into `y[b, pos - N]` when `pos ≥ N`. -/

def unpack_triton_y (N L : Nat) (idx : List Nat)
    (src : Nat → Nat → Int) (b l dd : Nat) : Int :=
  match firstWhere
      (fun i => i / (N + L) == b && (!decide (i % (N + L) < N) &&
        i % (N + L) - N == l)) idx with
  | some t => src t dd
  | none => 0

/-- `unpack_split_xy`, `x` output, with the implementation choice
explicit. -/

def unpack_x (useTriton : Bool) (N L : Nat) (idx : List Nat)
    (src : Nat → Nat → Int) (b n dd : Nat) : Int :=
  if useTriton then unpack_triton_x N L idx src b n dd
  else unpack_fallback_x N L idx src b n dd

/-- `unpack_split_xy`, `y` output, with the implementation choice
explicit. -/

def unpack_y (useTriton : Bool) (N L : Nat) (idx : List Nat)
    (src : Nat → Nat → Int) (b l dd : Nat) : Int :=
  if useTriton then unpack_triton_y N L idx src b l dd
  else unpack_fallback_y N L idx src b l dd

/-! ## Latent split across ranks (patch/vae.py, step 1)

`decode_latents_tiled_distributed` runs
`z_slice = z.tensor_split(cp_size, dim=2)[cp_rank]`. The latent's time
axis is modelled as a function `z : Nat → Int` over frame index
(`0 ≤ t < T`); the other axes are opaque. `torch.tensor_split` with an
integer `w` follows numpy `array_split`: the first `T % w` chunks have
size `T / w + 1` and the remaining ones size `T / w`. -/

/-- Size of chunk `r` of `torch.tensor_split` over a length-`T` axis
into `w` sections. -/

def tensorSplitSize (T w r : Nat) : Nat :=
  T / w + if r < T % w then 1 else 0

/-- Starting offset of chunk `r` of `torch.tensor_split`. -/

def tensorSplitStart (T w r : Nat) : Nat :=
  r * (T / w) + min r (T % w)

/-- Content of chunk `r`: element `k` of the chunk is the original
element at `start r + k` (chunks are contiguous views). -/

def tensorSplitChunk (z : Nat → Int) (T w r k : Nat) : Int :=
  z (tensorSplitStart T w r + k)

/-- Step 1 of `decode_latents_tiled_distributed`: rank `r` keeps
exactly chunk `r` of the `tensor_split`. -/

def z_slice (z : Nat → Int) (T w rank : Nat) : Nat → Int :=
  tensorSplitChunk z T w rank

/-! ## Distributed frame gather (vae/cp_conv.py)

`gather_all_frames` collects each rank's local decoded frames. A rank's
local tensor is a `List Int` of frames along the time axis (frame
content opaque, one `Int` per frame); the collection of all ranks, in
rank order, is a `List (List Int)`. The `dist.all_gather` collectives
are modelled by their effect: every rank learns all lengths and all
(padded) tensors in rank order. -/

/-- `_pad_to_max`: zero-pad at the end of the time axis up to `m`
frames (no-op when already at least `m` long, as in the source's
`if max_T > x.size(2)` guard). -/

def pad_to_max (m : Nat) (x : List Int) : List Int :=
  if x.length < m then x ++ List.replicate (m - x.length) 0 else x

/-- `gather_all_frames`: gather all local frame counts, pad every local
tensor to the maximum count, all-gather, trim each gathered tensor back
to its reported pre-pad length, and concatenate along time in rank
order. -/

def gather_all_frames (xs : List (List Int)) : List Int :=
  let allT := xs.map List.length
  let maxT := allT.foldr Nat.max 0
  let padded := xs.map (pad_to_max maxT)
  let trimmed := List.zipWith (fun t x => x.take t) allT padded
  trimmed.join

/-! ## Pod work coordination (coordinator.py)

`coordinate_pod_work` is embedded as an interleaving small-step machine.
Any number of processes run the function concurrently over a shared
filesystem; a schedule (list of process ids) picks which process
performs its next atomic action. Modelled state, mirroring the source:

- `completed`: the shared flag read by `is_work_complete()`; following
  the spec's concurrency scenario, `do_work` flips it to true as its
  final action when it succeeds, and raises when it fails (per-process
  `wbeh` field). `await do_work()` sits inside the `try:` whose handler
  is `except IOError:` — and `IOError` is `OSError` in Python 3 — so an
  OSError-family exception from `do_work` is caught by the lock-busy
  handler and diverts the holder into `_wait_for_pod_work_completion`
  (still holding the flock), while any other exception passes to the
  outer `except Exception`, is re-raised, and propagates;
- `workDir`: whether `work_dir` exists (`work_dir.mkdir(parents=True,
  exist_ok=True)` runs before the fast-path check);
- `path`: the lock file `work_dir/.{lock_name}.lock` as an optional
  inode number: `open(lock_file, 'w')` truncates the existing inode or
  creates a fresh one; `lock_file.unlink()` removes whatever inode the
  path currently names;
- `holders`: the advisory `flock` holder of each inode
  (`fcntl.flock(f.fileno(), LOCK_EX | LOCK_NB)` succeeds only when the
  opened file's inode has no holder); closing the file (leaving the
  `with open(...)` block) releases the caller's own lock;
- per-process control state `Phase` following the source's control
  flow, including the waiter loop of `_wait_for_pod_work_completion`
  (one atomic step per loop iteration, `waited` advancing by
  `check_interval_seconds`), and the `try/finally` cleanup: every slow
  path exit closes the file and then unlinks the lock path, whether or
  not this process ever acquired the lock, before the call returns
  (normally or by propagating an exception). -/

/-- Caller-visible outcome of one `coordinate_pod_work` invocation:
normal return, do_work exception propagated, or `TimeoutError`. -/

inductive Res
  | ok
  | errWork
  | errTimeout
deriving DecidableEq, Repr

/-- Control location of one process inside `coordinate_pod_work`. -/

inductive Phase
  | start
  | check
  | opn
  | flock
  | dbl
  | work
  | wait (w : Nat)
  | close (r : Res)
  | unlink (r : Res)
  | done (r : Res)
deriving DecidableEq, Repr

/-- Behaviour of one process's `do_work`: it succeeds and flips the
shared flag as its last action; or it raises an OSError-family
exception (`IOError`, which Python 3 aliases to `OSError`) — caught by
the `except IOError:` handler wrapped around the critical section; or
it raises any other exception — re-raised by the outer
`except Exception`. -/

inductive DoWork
  | succeeds
  | raisesOS
  | raisesOther
deriving DecidableEq, Repr

/-- One process: control location, its open file descriptor's inode
(if any), and the behaviour of its `do_work`. -/

structure Proc where
  phase : Phase
  fd : Option Nat
  wbeh : DoWork
deriving DecidableEq, Repr

/-- Observable events of a run, in chronological order. -/

inductive Ev
  | mkdirE (p : Nat)
  | fastRet (p : Nat)
  | openE (p : Nat) (created : Bool)
  | flockAcq (p : Nat)
  | flockBusy (p : Nat)
  | dblSkip (p : Nat)
  | workStart (p : Nat)
  | workEnd (p : Nat) (succ : Bool)
  | waitPoll (p : Nat) (w : Nat)
  | waitDone (p : Nat)
  | waitBreak (p : Nat)
  | waitTimeout (p : Nat)
  | closeE (p : Nat)
  | unlinkE (p : Nat) (found : Bool)
  | retE (p : Nat) (r : Res)
deriving DecidableEq, Repr

/-- Coordination parameters: `max_wait_seconds` and
`check_interval_seconds`. -/

structure Cfg where
  maxW : Nat
  c : Nat
deriving DecidableEq, Repr

/-- Shared state: filesystem, lock holders, processes, event log. -/

structure St where
  completed : Bool
  workDir : Bool
  path : Option Nat
  nextInode : Nat
  holders : Nat → Option Nat
  procs : List Proc
  events : List Ev

/-- One atomic action of process `i` (no-op for an unknown process or
a finished one). -/

def step (cfg : Cfg) (s : St) (i : Nat) : St :=
  match s.procs[i]? with
  | none => s
  | some pr =>
    match pr.phase with
    | .start =>
        { s with
          workDir := true
          procs := s.procs.set i { pr with phase := .check }
          events := s.events ++ [.mkdirE i] }
    | .check =>
        if s.completed then
          { s with
            procs := s.procs.set i { pr with phase := .done .ok }
            events := s.events ++ [.fastRet i, .retE i .ok] }
        else
          { s with procs := s.procs.set i { pr with phase := .opn } }
    | .opn =>
        match s.path with
        | some j =>
            { s with
              procs := s.procs.set i { pr with phase := .flock, fd := some j }
              events := s.events ++ [.openE i false] }
        | none =>
            { s with
              path := some s.nextInode
              nextInode := s.nextInode + 1
              procs := s.procs.set i
                { pr with phase := .flock, fd := some s.nextInode }
              events := s.events ++ [.openE i true] }
    | .flock =>
        match pr.fd with
        | none => s
        | some j =>
          match s.holders j with
          | none =>
              { s with
                holders := fun k => if k = j then some i else s.holders k
                procs := s.procs.set i { pr with phase := .dbl }
                events := s.events ++ [.flockAcq i] }
          | some _ =>
              { s with
                procs := s.procs.set i { pr with phase := .wait 0 }
                events := s.events ++ [.flockBusy i] }
    | .dbl =>
        if s.completed then
          { s with
            procs := s.procs.set i { pr with phase := .close .ok }
            events := s.events ++ [.dblSkip i] }
        else
          { s with
            procs := s.procs.set i { pr with phase := .work }
            events := s.events ++ [.workStart i] }
    | .work =>
        match pr.wbeh with
        | .succeeds =>
          { s with
            completed := true
            procs := s.procs.set i { pr with phase := .close .ok }
            events := s.events ++ [.workEnd i true] }
        | .raisesOS =>
          { s with
            procs := s.procs.set i { pr with phase := .wait 0 }
            events := s.events ++ [.workEnd i false] }
        | .raisesOther =>
          { s with
            procs := s.procs.set i { pr with phase := .close .errWork }
            events := s.events ++ [.workEnd i false] }
    | .wait w =>
        if w < cfg.maxW then
          if s.completed then
            { s with
              procs := s.procs.set i { pr with phase := .close .ok }
              events := s.events ++ [.waitDone i] }
          else
            match s.path with
            | none =>
                { s with
                  procs := s.procs.set i { pr with phase := .close .ok }
                  events := s.events ++ [.waitBreak i] }
            | some _ =>
                { s with
                  procs := s.procs.set i { pr with phase := .wait (w + cfg.c) }
                  events := s.events ++ [.waitPoll i w] }
        else
          { s with
            procs := s.procs.set i { pr with phase := .close .errTimeout }
            events := s.events ++ [.waitTimeout i] }
    | .close r =>
        let s' :=
          match pr.fd with
          | some j =>
              if s.holders j = some i then
                { s with holders := fun k => if k = j then none else s.holders k }
              else s
          | none => s
        { s' with
          procs := s.procs.set i { pr with phase := .unlink r }
          events := s.events ++ [.closeE i] }
    | .unlink r =>
        match s.path with
        | some _ =>
            { s with
              path := none
              procs := s.procs.set i { pr with phase := .done r }
              events := s.events ++ [.unlinkE i true, .retE i r] }
        | none =>
            { s with
              procs := s.procs.set i { pr with phase := .done r }
              events := s.events ++ [.unlinkE i false, .retE i r] }
    | .done _ => s

/-- Run a schedule from an arbitrary state. -/

def runFrom (cfg : Cfg) (s : St) : List Nat → St
  | [] => s
  | i :: rest => runFrom cfg (step cfg s i) rest

/-- Initial state: no lock file, no inode ever allocated, all processes
about to enter `coordinate_pod_work`; `ws` lists each process's
`do_work` behaviour. -/

def initSt (completed workDir : Bool) (ws : List DoWork) : St :=
  { completed := completed
    workDir := workDir
    path := none
    nextInode := 0
    holders := fun _ => none
    procs := ws.map (fun b => { phase := .start, fd := none, wbeh := b })
    events := [] }

/-- Run a schedule from the initial state. -/

def run (cfg : Cfg) (completed workDir : Bool) (ws : List DoWork)
    (sched : List Nat) : St :=
  runFrom cfg (initSt completed workDir ws) sched

/-- Recognizer for `do_work` invocation events. The `workStart` event
is emitted exactly when a process passes the double-check
`if not is_work_complete():` with the flag false and calls
`do_work()`. -/

def isWorkStart (e : Ev) : Bool :=
  match e with
  | .workStart _ => true
  | _ => false

/-- Number of `do_work` invocations performed while `is_complete()` was
false at call time. -/

def workStarts (s : St) : Nat := s.events.countP isWorkStart

/-! ### Mutual-exclusion invariant -/

structure WorkCore (s : St) : Prop where
  fdBound : ∀ (p : Nat) (pr : Proc) (j : Nat), s.procs[p]? = some pr → pr.fd = some j → j < s.nextInode
  pathBound : ∀ j, s.path = some j → j < s.nextInode
  hold : ∀ (p : Nat) (pr : Proc), s.procs[p]? = some pr →
    pr.phase = .dbl ∨ pr.phase = .work →
    ∃ j, pr.fd = some j ∧ s.holders j = some p
  wbAll : ∀ (p : Nat) (pr : Proc), s.procs[p]? = some pr → pr.wbeh = DoWork.succeeds
  wCount : workStarts s ≤ 1
  wWitness : workStarts s = 1 → s.completed = false →
    ∃ (p : Nat) (pr : Proc), s.procs[p]? = some pr ∧ pr.phase = .work

/-- A state with the work completed and one process inside the wait
loop, used to witness the liveness half of the amended C1. -/

def waiterSt : St :=
  { completed := true
    workDir := true
    path := none
    nextInode := 1
    holders := fun _ => none
    procs := [{ phase := .wait 0, fd := some 0, wbeh := .succeeds }]
    events := [] }

/-- Phases a process can only be in after its `open(lock_file, 'w')`
has executed. -/

def postOpenPhase : Phase → Prop
  | .flock => True
  | .dbl => True
  | .work => True
  | .wait _ => True
  | .close _ => True
  | .unlink _ => True
  | _ => False

/-- Invariant: the lock file is opened for writing before the `flock`
attempt — post-open phases have an open fd and an `openE` event, and
every `flock` outcome event is preceded by an `openE` event. -/

structure OpenInv (s : St) : Prop where
  openFd : ∀ (p : Nat) (pr : Proc), s.procs[p]? = some pr →
    postOpenPhase pr.phase →
    (∃ j, pr.fd = some j) ∧ ∃ b, Ev.openE p b ∈ s.events
  flockEv : ∀ p : Nat,
    Ev.flockAcq p ∈ s.events ∨ Ev.flockBusy p ∈ s.events →
    ∃ b, Ev.openE p b ∈ s.events

/-- A state with one process at the cleanup point after its wait loop
raised `TimeoutError` (it never held the `flock` on inode 0, which the
state books to another holder id), used to witness the cleanup half of
C10. -/

def closerSt : St :=
  { completed := false
    workDir := true
    path := some 0
    nextInode := 1
    holders := fun k => if k = 0 then some 7 else none
    procs := [{ phase := .close .errTimeout, fd := some 0, wbeh := .succeeds }]
    events := [] }

/-! ### C4: the fast path -/

/-- Invariant of runs that start with `is_complete()` true: every
process only ever visits `start → check → done ok`, no lock file is
created, no inode allocated, no `flock` taken, and the only events are
`mkdir`, the fast return print, and the successful return. -/

structure FastInv (s : St) : Prop where
  compl : s.completed = true
  pathN : s.path = none
  inode0 : s.nextInode = 0
  holdersN : ∀ j, s.holders j = none
  phases : ∀ (p : Nat) (pr : Proc), s.procs[p]? = some pr →
    (pr.phase = .start ∨ pr.phase = .check ∨ pr.phase = .done .ok) ∧
    pr.fd = none
  evs : ∀ e ∈ s.events,
    (∃ p, e = Ev.mkdirE p) ∨ (∃ p, e = Ev.fastRet p) ∨
      ∃ p, e = Ev.retE p .ok

/-! ## The wait loop as a function of its environment
(`_wait_for_pod_work_completion`)

The waiter only reads two things from the world: `is_complete()` and
`lock_file.exists()`. Both are modelled as functions of the elapsed
`waited` value (the loop observes them once per iteration, at
`waited = 0, c, 2c, ...`). The loop body is: while `waited < max_wait`,
poll `is_complete` (return on true), check the lock file (break on
absent), else sleep `c` and add `c` to `waited`; after the loop, raise
`TimeoutError` iff `waited ≥ max_wait`. The same loop is embedded in
the `step` machine above; this standalone version makes the outcome a
function of the environment trace. -/

/-- How one call of `_wait_for_pod_work_completion` exited, with the
`waited` value at exit: saw `is_complete()` true; saw the lock file
gone while incomplete (the `break`); or exhausted `max_wait`. -/

inductive WaitOutcome
  | completedAt (w : Nat)
  | lockGoneAt (w : Nat)
  | timeoutAt (w : Nat)
deriving DecidableEq, Repr

/-- What the caller of `_wait_for_pod_work_completion` can observe:
a normal `None` return, or a raised `TimeoutError`. The break path
returns `None` like the success path; the "will retry" notice is only
printed. -/

inductive WaitRet
  | normal
  | timeoutErr
deriving DecidableEq, Repr

/-- The wait loop. `fuel` bounds the number of iterations; the wrapper
passes `maxW + 1`, which is never exhausted when `0 < c`. -/

def waitGo (complete lockEx : Nat → Bool) (maxW c : Nat) :
    Nat → Nat → WaitOutcome
  | 0, w => .timeoutAt w
  | fuel + 1, w =>
    if w < maxW then
      if complete w then .completedAt w
      else if lockEx w then waitGo complete lockEx maxW c fuel (w + c)
      else .lockGoneAt w
    else .timeoutAt w

/-- `_wait_for_pod_work_completion` as a function of the environment. -/

def waitFor (complete lockEx : Nat → Bool) (maxW c : Nat) : WaitOutcome :=
  waitGo complete lockEx maxW c (maxW + 1) 0

/-- The caller-visible result of each exit: the loop returns `None`
both when it saw completion and when it broke on the vanished lock
file; only the timeout raises. -/

def waitCallerView : WaitOutcome → WaitRet
  | .timeoutAt _ => .timeoutErr
  | _ => .normal

/-! ### Helper lemmas about `firstWhere` and index arithmetic -/

theorem firstWhere_congr (P Q : Nat → Bool) (l : List Nat)
    (h : ∀ i ∈ l, P i = Q i) : firstWhere P l = firstWhere Q l := by
  induction l with
  | nil => rfl
  | cons a rest ih =>
    simp only [firstWhere, h a (List.mem_cons_self a rest)]
    rw [ih (fun i hi => h i (List.mem_cons_of_mem a hi))]

theorem firstWhere_eq_none (P : Nat → Bool) (l : List Nat)
    (h : ∀ i ∈ l, P i = false) : firstWhere P l = none := by
  induction l with
  | nil => rfl
  | cons a rest ih =>
    simp only [firstWhere, h a (List.mem_cons_self a rest)]
    simp [ih (fun i hi => h i (List.mem_cons_of_mem a hi))]

theorem firstWhere_eq_some (P : Nat → Bool) (l : List Nat)
    (h : ∃ i ∈ l, P i = true) :
    ∃ t, firstWhere P l = some t ∧ P (l.getD t 0) = true := by
  induction l with
  | nil => simp at h
  | cons a rest ih =>
    by_cases ha : P a = true
    · exact ⟨0, by simp [firstWhere, ha], by simpa using ha⟩
    · obtain ⟨i, hi, hPi⟩ := h
      rcases List.mem_cons.mp hi with rfl | hi
      · exact absurd hPi ha
      · obtain ⟨t, ht, hPt⟩ := ih ⟨i, hi, hPi⟩
        refine ⟨t + 1, ?_, by simpa using hPt⟩
        simp [firstWhere, ha, ht]

theorem flat_div (b n T : Nat) (hn : n < T) : (b * T + n) / T = b := by
  rw [Nat.add_comm, Nat.add_mul_div_right _ _ (Nat.pos_of_ne_zero (by omega))]
  simp [Nat.div_eq_of_lt hn]

theorem flat_mod (b n T : Nat) (hn : n < T) : (b * T + n) % T = n := by
  rw [Nat.add_comm, Nat.add_mul_mod_self_right]
  exact Nat.mod_eq_of_lt hn

/-! ### C5: pack row decoding -/

/-- C5: for every `X[B,N,·,·]`, `Y[B,L,·,·]` and index list with every
index in `[0, B*(N+L))`, output row `t` of `pack_cat_gather` (either
implementation) equals row `pos` of `X[b]` when `pos < N` and row
`pos - N` of `Y[b]` otherwise, where `b = idx[t] / (N+L)` and
`pos = idx[t] % (N+L)`; moreover the decoded batch `b` is in range. -/

theorem pack_row_decode (useTriton : Bool) (B N L : Nat)
    (X Y : Nat → Nat → Nat → Int) (idx : List Nat) (t dd : Nat)
    (ht : t < idx.length) (hrange : ∀ i ∈ idx, i < B * (N + L)) :
    pack_cat_gather useTriton N L X Y idx t dd =
      (if idx.getD t 0 % (N + L) < N then
        X (idx.getD t 0 / (N + L)) (idx.getD t 0 % (N + L)) dd
      else
        Y (idx.getD t 0 / (N + L)) (idx.getD t 0 % (N + L) - N) dd) ∧
    idx.getD t 0 / (N + L) < B := by
  constructor
  · cases useTriton <;>
      simp [pack_cat_gather, pack_triton, pack_fallback, catRow]
  · have hmem : idx.getD t 0 ∈ idx := by
      rw [List.getD_eq_getElem idx 0 ht]
      exact List.getElem_mem ht
    have hi := hrange _ hmem
    rw [Nat.mul_comm] at hi
    exact Nat.div_lt_of_lt_mul hi

/-- C5 witness: a concrete instance with `B = 2, N = 2, L = 1`,
`idx = [4, 0, 3]`. -/

theorem pack_row_decode_witness :
    0 < ([4, 0, 3] : List Nat).length ∧
    (∀ i ∈ ([4, 0, 3] : List Nat), i < 2 * (2 + 1)) ∧
    pack_cat_gather true 2 1
      (fun b n dd => (100 * b + 10 * n + dd : Int))
      (fun b l dd => (1000 * b + 10 * l + dd : Int)) [4, 0, 3] 0 0 =
      (100 * 1 + 10 * 1 + 0 : Int) := by
  refine ⟨by decide, by decide, ?_⟩
  have h := pack_row_decode true 2 2 1
    (fun b n dd => (100 * b + 10 * n + dd : Int))
    (fun b l dd => (1000 * b + 10 * l + dd : Int)) [4, 0, 3] 0 0
    (by decide) (by decide)
  exact h.1.trans (by norm_num)

/-! ### C7: the two implementations decode and produce identically -/

theorem unpackX_pred_eq (N L b n : Nat) (hn : n < N) (i : Nat) :
    (i / (N + L) == b && (decide (i % (N + L) < N) && i % (N + L) == n)) =
    (i == b * (N + L) + n) := by
  have hT : n < N + L := by omega
  rcases Bool.eq_false_or_eq_true (i == b * (N + L) + n) with hb | hb
  · rw [hb]
    have : i = b * (N + L) + n := by simpa using hb
    subst this
    simp [flat_div b n (N + L) hT, flat_mod b n (N + L) hT, hn]
  · rw [hb]
    apply Bool.eq_false_iff.mpr
    intro hcontra
    simp only [Bool.and_eq_true, beq_iff_eq, decide_eq_true_eq] at hcontra
    obtain ⟨hdiv, hlt, hmod⟩ := hcontra
    have hdm := Nat.div_add_mod i (N + L)
    rw [hdiv, hmod] at hdm
    have : i = b * (N + L) + n := by rw [Nat.mul_comm]; omega
    exact absurd hb (by simp [this])

theorem unpackY_pred_eq (N L b l : Nat) (hl : l < L) (i : Nat) :
    (i / (N + L) == b && (!decide (i % (N + L) < N) &&
      i % (N + L) - N == l)) =
    (i == b * (N + L) + N + l) := by
  have hT : N + l < N + L := by omega
  rcases Bool.eq_false_or_eq_true (i == b * (N + L) + N + l) with hb | hb
  · rw [hb]
    have : i = b * (N + L) + N + l := by simpa using hb
    subst this
    have h1 : b * (N + L) + N + l = b * (N + L) + (N + l) := by omega
    rw [h1, flat_div b (N + l) (N + L) hT, flat_mod b (N + l) (N + L) hT]
    simp
  · rw [hb]
    apply Bool.eq_false_iff.mpr
    intro hcontra
    simp only [Bool.and_eq_true, Bool.not_eq_true', beq_iff_eq,
      decide_eq_false_iff_not, Nat.not_lt] at hcontra
    obtain ⟨hdiv, hge, hmod⟩ := hcontra
    have hdm := Nat.div_add_mod i (N + L)
    have hmodN : i % (N + L) = N + l := by omega
    rw [hdiv, hmodN] at hdm
    have : i = b * (N + L) + N + l := by rw [Nat.mul_comm]; omega
    exact absurd hb (by simp [this])

theorem unpack_x_impl_eq (N L : Nat) (idx : List Nat)
    (src : Nat → Nat → Int) (b n dd : Nat) (hn : n < N) :
    unpack_triton_x N L idx src b n dd =
    unpack_fallback_x N L idx src b n dd := by
  unfold unpack_triton_x unpack_fallback_x unpack_fallback_full
  rw [firstWhere_congr _ _ idx (fun i _ => unpackX_pred_eq N L b n hn i)]

theorem unpack_y_impl_eq (N L : Nat) (idx : List Nat)
    (src : Nat → Nat → Int) (b l dd : Nat) (hl : l < L) :
    unpack_triton_y N L idx src b l dd =
    unpack_fallback_y N L idx src b l dd := by
  unfold unpack_triton_y unpack_fallback_y unpack_fallback_full
  rw [firstWhere_congr _ _ idx (fun i _ => unpackY_pred_eq N L b l hl i)]

theorem pack_impl_eq (N L : Nat) (X Y : Nat → Nat → Nat → Int)
    (idx : List Nat) (t dd : Nat) :
    pack_triton N L X Y idx t dd = pack_fallback N L X Y idx t dd := rfl

/-- C7: with the same shapes and the same index list (each index in
range, pairwise distinct as the callers guarantee), the Triton-kernel
implementation and the eager PyTorch fallback of pack/unpack use the
same index decoding and produce equal results at every coordinate, so
the `USE_TRITON_PACK` selection is transparent to the caller. At this
(exact, integer-valued) level of modelling, "numerically equivalent
within tolerance" is established as exact equality. -/

theorem pack_unpack_impl_equiv (B N L : Nat)
    (X Y : Nat → Nat → Nat → Int) (src : Nat → Nat → Int)
    (idx : List Nat) (hrange : ∀ i ∈ idx, i < B * (N + L))
    (hnodup : idx.Nodup) :
    (∀ t dd, pack_cat_gather true N L X Y idx t dd =
      pack_cat_gather false N L X Y idx t dd) ∧
    (∀ b n dd, n < N → unpack_x true N L idx src b n dd =
      unpack_x false N L idx src b n dd) ∧
    (∀ b l dd, l < L → unpack_y true N L idx src b l dd =
      unpack_y false N L idx src b l dd) := by
  refine ⟨fun t dd => rfl, fun b n dd hn => ?_, fun b l dd hl => ?_⟩
  · simpa [unpack_x] using unpack_x_impl_eq N L idx src b n dd hn
  · simpa [unpack_y] using unpack_y_impl_eq N L idx src b l dd hl

/-- C7 witness: concrete instance with `B = 2, N = 2, L = 1`,
`idx = [4, 0, 3]`. -/

theorem pack_unpack_impl_equiv_witness :
    (∀ i ∈ ([4, 0, 3] : List Nat), i < 2 * (2 + 1)) ∧
    ([4, 0, 3] : List Nat).Nodup ∧
    unpack_x true 2 1 [4, 0, 3] (fun t dd => (10 * t + dd : Int)) 1 1 0 =
      unpack_x false 2 1 [4, 0, 3] (fun t dd => (10 * t + dd : Int)) 1 1 0 := by
  refine ⟨by decide, by decide, ?_⟩
  exact (pack_unpack_impl_equiv 2 2 1
    (fun b n dd => (100 * b + 10 * n + dd : Int))
    (fun b l dd => (1000 * b + 10 * l + dd : Int))
    (fun t dd => (10 * t + dd : Int)) [4, 0, 3]
    (by decide) (by decide)).2.1 1 1 0 (by decide)

/-! ### C6: pack/unpack round trip -/

theorem roundtrip_fallback_x (B N L : Nat) (X Y : Nat → Nat → Nat → Int)
    (idx : List Nat) (b n dd : Nat) (hn : n < N) :
    (b * (N + L) + n ∈ idx →
      unpack_fallback_x N L idx (pack_fallback N L X Y idx) b n dd =
        X b n dd) ∧
    (b * (N + L) + n ∉ idx →
      unpack_fallback_x N L idx (pack_fallback N L X Y idx) b n dd = 0) := by
  have hT : n < N + L := by omega
  constructor
  · intro hmem
    unfold unpack_fallback_x unpack_fallback_full
    obtain ⟨t, ht, hPt⟩ := firstWhere_eq_some (fun i => i == b * (N + L) + n)
      idx ⟨b * (N + L) + n, hmem, by simp⟩
    rw [ht]
    have hval : idx.getD t 0 = b * (N + L) + n := by simpa using hPt
    simp only [pack_fallback, hval, catRow,
      flat_div b n (N + L) hT, flat_mod b n (N + L) hT]
    simp [hn]
  · intro hmem
    unfold unpack_fallback_x unpack_fallback_full
    rw [firstWhere_eq_none _ _ (fun i hi => by
      simp only [beq_eq_false_iff_ne, ne_eq]
      intro hcontra; exact hmem (hcontra ▸ hi))]

theorem roundtrip_fallback_y (B N L : Nat) (X Y : Nat → Nat → Nat → Int)
    (idx : List Nat) (b l dd : Nat) (hl : l < L) :
    (b * (N + L) + N + l ∈ idx →
      unpack_fallback_y N L idx (pack_fallback N L X Y idx) b l dd =
        Y b l dd) ∧
    (b * (N + L) + N + l ∉ idx →
      unpack_fallback_y N L idx (pack_fallback N L X Y idx) b l dd = 0) := by
  have hT : N + l < N + L := by omega
  have hflat : b * (N + L) + N + l = b * (N + L) + (N + l) := by omega
  constructor
  · intro hmem
    unfold unpack_fallback_y unpack_fallback_full
    obtain ⟨t, ht, hPt⟩ := firstWhere_eq_some
      (fun i => i == b * (N + L) + N + l) idx
      ⟨b * (N + L) + N + l, hmem, by simp⟩
    rw [ht]
    have hval : idx.getD t 0 = b * (N + L) + N + l := by simpa using hPt
    simp only [pack_fallback, hval, hflat, catRow,
      flat_div b (N + l) (N + L) hT, flat_mod b (N + l) (N + L) hT]
    simp
  · intro hmem
    unfold unpack_fallback_y unpack_fallback_full
    rw [firstWhere_eq_none _ _ (fun i hi => by
      simp only [beq_eq_false_iff_ne, ne_eq]
      intro hcontra; exact hmem (hcontra ▸ hi))]

/-- C6: for any `X[B,N,·,·]`, `Y[B,L,·,·]` and pairwise-distinct
in-range index list, `unpack (pack X Y idx) idx` (either
implementation) reconstructs `X` and `Y` exactly at every position
touched by some index, and is zero at every untouched position. -/

theorem pack_unpack_roundtrip (useTriton : Bool) (B N L : Nat)
    (X Y : Nat → Nat → Nat → Int) (idx : List Nat)
    (hrange : ∀ i ∈ idx, i < B * (N + L)) (hnodup : idx.Nodup) :
    ∀ b n l dd, b < B →
    (n < N →
      (b * (N + L) + n ∈ idx →
        unpack_x useTriton N L idx
          (pack_cat_gather useTriton N L X Y idx) b n dd = X b n dd) ∧
      (b * (N + L) + n ∉ idx →
        unpack_x useTriton N L idx
          (pack_cat_gather useTriton N L X Y idx) b n dd = 0)) ∧
    (l < L →
      (b * (N + L) + N + l ∈ idx →
        unpack_y useTriton N L idx
          (pack_cat_gather useTriton N L X Y idx) b l dd = Y b l dd) ∧
      (b * (N + L) + N + l ∉ idx →
        unpack_y useTriton N L idx
          (pack_cat_gather useTriton N L X Y idx) b l dd = 0)) := by
  intro b n l dd hb
  have hpack : pack_cat_gather useTriton N L X Y idx =
      pack_fallback N L X Y idx := by
    cases useTriton <;> rfl
  constructor
  · intro hn
    have hx : unpack_x useTriton N L idx
        (pack_cat_gather useTriton N L X Y idx) b n dd =
        unpack_fallback_x N L idx (pack_fallback N L X Y idx) b n dd := by
      rw [hpack]
      cases useTriton
      · rfl
      · simpa [unpack_x] using
          unpack_x_impl_eq N L idx (pack_fallback N L X Y idx) b n dd hn
    rw [hx]
    exact roundtrip_fallback_x B N L X Y idx b n dd hn
  · intro hl
    have hy : unpack_y useTriton N L idx
        (pack_cat_gather useTriton N L X Y idx) b l dd =
        unpack_fallback_y N L idx (pack_fallback N L X Y idx) b l dd := by
      rw [hpack]
      cases useTriton
      · rfl
      · simpa [unpack_y] using
          unpack_y_impl_eq N L idx (pack_fallback N L X Y idx) b l dd hl
    rw [hy]
    exact roundtrip_fallback_y B N L X Y idx b l dd hl

/-- C6 witness: concrete instance with `B = 2, N = 2, L = 1`,
`idx = [4, 0, 3]`; position `(b, n) = (1, 1)` is touched by index 4. -/

theorem pack_unpack_roundtrip_witness :
    (∀ i ∈ ([4, 0, 3] : List Nat), i < 2 * (2 + 1)) ∧
    ([4, 0, 3] : List Nat).Nodup ∧ (1 : Nat) < 2 ∧
    (1 * (2 + 1) + 1 ∈ ([4, 0, 3] : List Nat)) ∧
    unpack_x true 2 1 [4, 0, 3]
      (pack_cat_gather true 2 1
        (fun b n dd => (100 * b + 10 * n + dd : Int))
        (fun b l dd => (1000 * b + 10 * l + dd : Int)) [4, 0, 3]) 1 1 0 =
      (100 * 1 + 10 * 1 + 0 : Int) := by
  refine ⟨by decide, by decide, by decide, by decide, ?_⟩
  exact (((pack_unpack_roundtrip true 2 2 1
    (fun b n dd => (100 * b + 10 * n + dd : Int))
    (fun b l dd => (1000 * b + 10 * l + dd : Int)) [4, 0, 3]
    (by decide) (by decide) 1 1 0 0 (by decide)).1 (by decide)).1
    (by decide)).trans (by norm_num)

/-! ### C8: split layout -/

/-- C8 counterexample: the claim says every chunk except the last has
size `T / w` (last absorbs the remainder). `torch.tensor_split` instead
gives the remainder to the first chunks: for `T = 5, w = 3`, chunk 0
has size 2, not `5 / 3 = 1`. -/

theorem tensor_split_counterexample :
    ¬ (∀ T w r : Nat, 0 < w → r < w - 1 → tensorSplitSize T w r = T / w) := by
  intro h
  exact absurd (h 5 3 0 (by norm_num) (by norm_num)) (by decide)

/-- C8 amended: `tensor_split` splits the time axis into `w` contiguous
chunks whose concatenation is the original tensor, where the first
`T % w` chunks have size `T / w + 1` and the remaining chunks have size
`T / w` (the remainder goes to the first chunks, not the last); rank
`r` keeps exactly the `r`-th chunk. -/

theorem tensor_split_amended (z : Nat → Int) (T w : Nat) (hw : 0 < w) :
    tensorSplitStart T w 0 = 0 ∧
    (∀ r, tensorSplitStart T w (r + 1) =
      tensorSplitStart T w r + tensorSplitSize T w r) ∧
    tensorSplitStart T w w = T ∧
    (∀ r, r < w →
      (r < T % w → tensorSplitSize T w r = T / w + 1) ∧
      (T % w ≤ r → tensorSplitSize T w r = T / w)) ∧
    (∀ rank k, z_slice z T w rank k = z (tensorSplitStart T w rank + k)) := by
  refine ⟨by simp [tensorSplitStart], fun r => ?_, ?_, fun r _ => ?_,
    fun rank k => rfl⟩
  · simp only [tensorSplitStart, tensorSplitSize]
    rcases Nat.lt_or_ge r (T % w) with h | h
    · have h1 : min r (T % w) = r := by omega
      have h2 : min (r + 1) (T % w) = r + 1 := by omega
      simp only [h1, h2, if_pos h]
      ring
    · have h1 : min r (T % w) = T % w := by omega
      have h2 : min (r + 1) (T % w) = T % w := by omega
      simp only [h1, h2, if_neg (by omega : ¬ r < T % w)]
      ring
  · have hdm := Nat.div_add_mod T w
    have hlt : T % w < w := Nat.mod_lt _ hw
    simp only [tensorSplitStart]
    have hmin : min w (T % w) = T % w := by omega
    rw [hmin]
    omega
  · constructor
    · intro h; simp [tensorSplitSize, h]
    · intro h; simp [tensorSplitSize, Nat.not_lt.mpr h]

/-- C8 amended witness: `T = 5, w = 3`: sizes are `[2, 2, 1]` and the
starts telescope to 5. -/

theorem tensor_split_amended_witness :
    (0 : Nat) < 3 ∧ tensorSplitStart 5 3 3 = 5 ∧
    tensorSplitSize 5 3 0 = 2 ∧ tensorSplitSize 5 3 2 = 1 := by
  refine ⟨by decide, ?_, by decide, by decide⟩
  exact (tensor_split_amended (fun _ => 0) 5 3 (by decide)).2.2.1

theorem take_pad_to_max (m : Nat) (x : List Int) :
    (pad_to_max m x).take x.length = x := by
  unfold pad_to_max
  split
  · rw [List.take_left]
  · exact List.take_length x

theorem trim_padded (m : Nat) (xs : List (List Int)) :
    List.zipWith (fun t x => x.take t) (xs.map List.length)
      (xs.map (pad_to_max m)) = xs := by
  induction xs with
  | nil => rfl
  | cons a rest ih => simp [take_pad_to_max, ih]

/-- C9: the pad / all-gather / trim / concatenate protocol returns
exactly the concatenation of every rank's local frames in rank order:
the result has `sum T_i` frames with nothing duplicated or dropped. In
particular local frame counts `[5, 7, 5]` yield 17 frames. -/

theorem gather_all_frames_roundtrip :
    (∀ xs : List (List Int), gather_all_frames xs = xs.join ∧
      (gather_all_frames xs).length = (xs.map List.length).sum) ∧
    (gather_all_frames
      [List.replicate 5 1, List.replicate 7 2, List.replicate 5 3]).length
      = 17 := by
  have main : ∀ xs : List (List Int), gather_all_frames xs = xs.join := by
    intro xs
    show (List.zipWith (fun t x => x.take t) (xs.map List.length)
      (xs.map (pad_to_max ((xs.map List.length).foldr Nat.max 0)))).join = xs.join
    rw [trim_padded]
  refine ⟨fun xs => ⟨main xs, ?_⟩, ?_⟩
  · rw [main xs, List.length_join]
  · rw [main]
    simp

/-! ### Step equations, one per branch of `step` -/

theorem stepEq_none (cfg : Cfg) (s : St) (i : Nat)
    (h : s.procs[i]? = none) : step cfg s i = s := by
  simp [step, h]

theorem stepEq_done (cfg : Cfg) (s : St) (i : Nat) (pr : Proc) (r : Res)
    (h : s.procs[i]? = some pr) (hph : pr.phase = .done r) :
    step cfg s i = s := by
  simp [step, h, hph]

theorem stepEq_start (cfg : Cfg) (s : St) (i : Nat) (pr : Proc)
    (h : s.procs[i]? = some pr) (hph : pr.phase = .start) :
    step cfg s i = { s with
      workDir := true
      procs := s.procs.set i { pr with phase := .check }
      events := s.events ++ [.mkdirE i] } := by
  simp [step, h, hph]

theorem stepEq_check_t (cfg : Cfg) (s : St) (i : Nat) (pr : Proc)
    (h : s.procs[i]? = some pr) (hph : pr.phase = .check)
    (hc : s.completed = true) :
    step cfg s i = { s with
      procs := s.procs.set i { pr with phase := .done .ok }
      events := s.events ++ [.fastRet i, .retE i .ok] } := by
  simp [step, h, hph, hc]

theorem stepEq_check_f (cfg : Cfg) (s : St) (i : Nat) (pr : Proc)
    (h : s.procs[i]? = some pr) (hph : pr.phase = .check)
    (hc : s.completed = false) :
    step cfg s i = { s with procs := s.procs.set i { pr with phase := .opn } } := by
  simp [step, h, hph, hc]

theorem stepEq_opn_some (cfg : Cfg) (s : St) (i j : Nat) (pr : Proc)
    (h : s.procs[i]? = some pr) (hph : pr.phase = .opn)
    (hp : s.path = some j) :
    step cfg s i = { s with
      procs := s.procs.set i { pr with phase := .flock, fd := some j }
      events := s.events ++ [.openE i false] } := by
  simp [step, h, hph, hp]

theorem stepEq_opn_none (cfg : Cfg) (s : St) (i : Nat) (pr : Proc)
    (h : s.procs[i]? = some pr) (hph : pr.phase = .opn)
    (hp : s.path = none) :
    step cfg s i = { s with
      path := some s.nextInode
      nextInode := s.nextInode + 1
      procs := s.procs.set i { pr with phase := .flock, fd := some s.nextInode }
      events := s.events ++ [.openE i true] } := by
  simp [step, h, hph, hp]

theorem stepEq_flock_nofd (cfg : Cfg) (s : St) (i : Nat) (pr : Proc)
    (h : s.procs[i]? = some pr) (hph : pr.phase = .flock)
    (hfd : pr.fd = none) : step cfg s i = s := by
  simp [step, h, hph, hfd]

theorem stepEq_flock_acq (cfg : Cfg) (s : St) (i j : Nat) (pr : Proc)
    (h : s.procs[i]? = some pr) (hph : pr.phase = .flock)
    (hfd : pr.fd = some j) (hh : s.holders j = none) :
    step cfg s i = { s with
      holders := fun k => if k = j then some i else s.holders k
      procs := s.procs.set i { pr with phase := .dbl }
      events := s.events ++ [.flockAcq i] } := by
  simp [step, h, hph, hfd, hh]

theorem stepEq_flock_busy (cfg : Cfg) (s : St) (i j q : Nat) (pr : Proc)
    (h : s.procs[i]? = some pr) (hph : pr.phase = .flock)
    (hfd : pr.fd = some j) (hh : s.holders j = some q) :
    step cfg s i = { s with
      procs := s.procs.set i { pr with phase := .wait 0 }
      events := s.events ++ [.flockBusy i] } := by
  simp [step, h, hph, hfd, hh]

theorem stepEq_dbl_t (cfg : Cfg) (s : St) (i : Nat) (pr : Proc)
    (h : s.procs[i]? = some pr) (hph : pr.phase = .dbl)
    (hc : s.completed = true) :
    step cfg s i = { s with
      procs := s.procs.set i { pr with phase := .close .ok }
      events := s.events ++ [.dblSkip i] } := by
  simp [step, h, hph, hc]

theorem stepEq_dbl_f (cfg : Cfg) (s : St) (i : Nat) (pr : Proc)
    (h : s.procs[i]? = some pr) (hph : pr.phase = .dbl)
    (hc : s.completed = false) :
    step cfg s i = { s with
      procs := s.procs.set i { pr with phase := .work }
      events := s.events ++ [.workStart i] } := by
  simp [step, h, hph, hc]

theorem stepEq_work_ok (cfg : Cfg) (s : St) (i : Nat) (pr : Proc)
    (h : s.procs[i]? = some pr) (hph : pr.phase = .work)
    (hw : pr.wbeh = .succeeds) :
    step cfg s i = { s with
      completed := true
      procs := s.procs.set i { pr with phase := .close .ok }
      events := s.events ++ [.workEnd i true] } := by
  simp [step, h, hph, hw]

theorem stepEq_work_io (cfg : Cfg) (s : St) (i : Nat) (pr : Proc)
    (h : s.procs[i]? = some pr) (hph : pr.phase = .work)
    (hw : pr.wbeh = .raisesOS) :
    step cfg s i = { s with
      procs := s.procs.set i { pr with phase := .wait 0 }
      events := s.events ++ [.workEnd i false] } := by
  simp [step, h, hph, hw]

theorem stepEq_work_other (cfg : Cfg) (s : St) (i : Nat) (pr : Proc)
    (h : s.procs[i]? = some pr) (hph : pr.phase = .work)
    (hw : pr.wbeh = .raisesOther) :
    step cfg s i = { s with
      procs := s.procs.set i { pr with phase := .close .errWork }
      events := s.events ++ [.workEnd i false] } := by
  simp [step, h, hph, hw]

theorem stepEq_wait_done (cfg : Cfg) (s : St) (i w : Nat) (pr : Proc)
    (h : s.procs[i]? = some pr) (hph : pr.phase = .wait w)
    (hlt : w < cfg.maxW) (hc : s.completed = true) :
    step cfg s i = { s with
      procs := s.procs.set i { pr with phase := .close .ok }
      events := s.events ++ [.waitDone i] } := by
  simp [step, h, hph, hlt, hc]

theorem stepEq_wait_break (cfg : Cfg) (s : St) (i w : Nat) (pr : Proc)
    (h : s.procs[i]? = some pr) (hph : pr.phase = .wait w)
    (hlt : w < cfg.maxW) (hc : s.completed = false) (hp : s.path = none) :
    step cfg s i = { s with
      procs := s.procs.set i { pr with phase := .close .ok }
      events := s.events ++ [.waitBreak i] } := by
  simp [step, h, hph, hlt, hc, hp]

theorem stepEq_wait_poll (cfg : Cfg) (s : St) (i w j : Nat) (pr : Proc)
    (h : s.procs[i]? = some pr) (hph : pr.phase = .wait w)
    (hlt : w < cfg.maxW) (hc : s.completed = false) (hp : s.path = some j) :
    step cfg s i = { s with
      procs := s.procs.set i { pr with phase := .wait (w + cfg.c) }
      events := s.events ++ [.waitPoll i w] } := by
  simp [step, h, hph, hlt, hc, hp]

theorem stepEq_wait_to (cfg : Cfg) (s : St) (i w : Nat) (pr : Proc)
    (h : s.procs[i]? = some pr) (hph : pr.phase = .wait w)
    (hlt : ¬ w < cfg.maxW) :
    step cfg s i = { s with
      procs := s.procs.set i { pr with phase := .close .errTimeout }
      events := s.events ++ [.waitTimeout i] } := by
  simp [step, h, hph, hlt]

theorem stepEq_close_rel (cfg : Cfg) (s : St) (i j : Nat) (pr : Proc) (r : Res)
    (h : s.procs[i]? = some pr) (hph : pr.phase = .close r)
    (hfd : pr.fd = some j) (hh : s.holders j = some i) :
    step cfg s i = { s with
      holders := fun k => if k = j then none else s.holders k
      procs := s.procs.set i { pr with phase := .unlink r }
      events := s.events ++ [.closeE i] } := by
  simp [step, h, hph, hfd, hh]

theorem stepEq_close_keep (cfg : Cfg) (s : St) (i j : Nat) (pr : Proc) (r : Res)
    (h : s.procs[i]? = some pr) (hph : pr.phase = .close r)
    (hfd : pr.fd = some j) (hh : ¬ s.holders j = some i) :
    step cfg s i = { s with
      procs := s.procs.set i { pr with phase := .unlink r }
      events := s.events ++ [.closeE i] } := by
  simp [step, h, hph, hfd, hh]

theorem stepEq_close_nofd (cfg : Cfg) (s : St) (i : Nat) (pr : Proc) (r : Res)
    (h : s.procs[i]? = some pr) (hph : pr.phase = .close r)
    (hfd : pr.fd = none) :
    step cfg s i = { s with
      procs := s.procs.set i { pr with phase := .unlink r }
      events := s.events ++ [.closeE i] } := by
  simp [step, h, hph, hfd]

theorem stepEq_unlink_some (cfg : Cfg) (s : St) (i j : Nat) (pr : Proc) (r : Res)
    (h : s.procs[i]? = some pr) (hph : pr.phase = .unlink r)
    (hp : s.path = some j) :
    step cfg s i = { s with
      path := none
      procs := s.procs.set i { pr with phase := .done r }
      events := s.events ++ [.unlinkE i true, .retE i r] } := by
  simp [step, h, hph, hp]

theorem stepEq_unlink_none (cfg : Cfg) (s : St) (i : Nat) (pr : Proc) (r : Res)
    (h : s.procs[i]? = some pr) (hph : pr.phase = .unlink r)
    (hp : s.path = none) :
    step cfg s i = { s with
      procs := s.procs.set i { pr with phase := .done r }
      events := s.events ++ [.unlinkE i false, .retE i r] } := by
  simp [step, h, hph, hp]

/-! ### Frame and monotonicity lemmas -/

theorem step_completed_mono (cfg : Cfg) (s : St) (i : Nat)
    (h : s.completed = true) : (step cfg s i).completed = true := by
  unfold step
  cases hpi : s.procs[i]? with
  | none => simpa only [hpi] using h
  | some pr =>
    simp only [hpi]
    cases hph : pr.phase <;> simp only [hph] <;>
      (repeat' split) <;> (first | exact h | rfl)

theorem step_procs_frame (cfg : Cfg) (s : St) (i q : Nat) (hne : i ≠ q) :
    (step cfg s i).procs[q]? = s.procs[q]? := by
  unfold step
  cases hpi : s.procs[i]? with
  | none => simp only [hpi]
  | some pr =>
    simp only [hpi]
    cases hph : pr.phase <;> simp only [hph] <;>
      (repeat' split) <;> (first | rfl | exact List.getElem?_set_ne hne)

theorem step_nextInode_mono (cfg : Cfg) (s : St) (i : Nat) :
    s.nextInode ≤ (step cfg s i).nextInode := by
  unfold step
  cases hpi : s.procs[i]? with
  | none => exact le_of_eq (by simp [hpi])
  | some pr =>
    simp only [hpi]
    cases hph : pr.phase <;> simp only [hph] <;>
      (repeat' split) <;> (first | exact le_refl _ | exact Nat.le_succ _)

theorem step_events_mono (cfg : Cfg) (s : St) (i : Nat) :
    ∃ tail, (step cfg s i).events = s.events ++ tail := by
  unfold step
  cases hpi : s.procs[i]? with
  | none => exact ⟨[], by simp [hpi]⟩
  | some pr =>
    simp only [hpi]
    cases hph : pr.phase <;> simp only [hph] <;>
      (repeat' split) <;>
      (first | exact ⟨_, rfl⟩ | exact ⟨[], (List.append_nil _).symm⟩)

theorem runFrom_nextInode_mono (cfg : Cfg) (s : St) (sched : List Nat) :
    s.nextInode ≤ (runFrom cfg s sched).nextInode := by
  induction sched generalizing s with
  | nil => exact le_refl _
  | cons i rest ih =>
    exact le_trans (step_nextInode_mono cfg s i) (ih (step cfg s i))

theorem lookup_set (l : List Proc) (i : Nat) (a : Proc)
    (hlen : i < l.length) (p : Nat) :
    (l.set i a)[p]? = if p = i then some a else l[p]? := by
  by_cases h : p = i
  · subst h; simp [List.getElem?_set_eq hlen]
  · simp [List.getElem?_set_ne (Ne.symm h), h]

/-! ### Liveness of waiters after completion -/

theorem runFrom_done (cfg : Cfg) (s : St) (p : Nat) (pr : Proc) (r : Res)
    (sched : List Nat) (h : s.procs[p]? = some pr) (hph : pr.phase = .done r) :
    ∃ pr', (runFrom cfg s sched).procs[p]? = some pr' ∧ pr'.phase = .done r := by
  induction sched generalizing s pr with
  | nil => exact ⟨pr, h, hph⟩
  | cons i rest ih =>
    simp only [runFrom]
    by_cases hip : i = p
    · subst hip
      exact ih _ _ (by rw [stepEq_done cfg s i pr r h hph]; exact h) hph
    · exact ih _ _ (by rw [step_procs_frame cfg s i p hip]; exact h) hph

theorem runFrom_unlink (cfg : Cfg) (s : St) (p : Nat) (pr : Proc) (r : Res)
    (sched : List Nat) (h : s.procs[p]? = some pr) (hph : pr.phase = .unlink r)
    (hcnt : 1 ≤ sched.count p) :
    ∃ pr', (runFrom cfg s sched).procs[p]? = some pr' ∧ pr'.phase = .done r := by
  induction sched generalizing s pr with
  | nil => simp [List.count_nil] at hcnt
  | cons i rest ih =>
    simp only [runFrom]
    have hlen : p < s.procs.length := (List.getElem?_eq_some.mp h).1
    by_cases hip : i = p
    · subst hip
      cases hpath : s.path with
      | some j =>
        refine runFrom_done cfg _ i { pr with phase := .done r } r rest ?_ rfl
        rw [stepEq_unlink_some cfg s i j pr r h hph hpath]
        exact List.getElem?_set_eq hlen
      | none =>
        refine runFrom_done cfg _ i { pr with phase := .done r } r rest ?_ rfl
        rw [stepEq_unlink_none cfg s i pr r h hph hpath]
        exact List.getElem?_set_eq hlen
    · have hcnt' : 1 ≤ rest.count p := by
        rwa [List.count_cons_of_ne (by simpa using Ne.symm hip)] at hcnt
      exact ih _ _ (by rw [step_procs_frame cfg s i p hip]; exact h) hph hcnt'

theorem runFrom_close (cfg : Cfg) (s : St) (p : Nat) (pr : Proc) (r : Res)
    (sched : List Nat) (h : s.procs[p]? = some pr) (hph : pr.phase = .close r)
    (hcnt : 2 ≤ sched.count p) :
    ∃ pr', (runFrom cfg s sched).procs[p]? = some pr' ∧ pr'.phase = .done r := by
  induction sched generalizing s pr with
  | nil => simp [List.count_nil] at hcnt
  | cons i rest ih =>
    simp only [runFrom]
    have hlen : p < s.procs.length := (List.getElem?_eq_some.mp h).1
    by_cases hip : i = p
    · subst hip
      have hcnt' : 1 ≤ rest.count i := by
        rw [List.count_cons_self] at hcnt; omega
      cases hfd : pr.fd with
      | some j =>
        by_cases hh : s.holders j = some i
        · refine runFrom_unlink cfg _ i { pr with phase := .unlink r } r rest
            ?_ rfl hcnt'
          rw [stepEq_close_rel cfg s i j pr r h hph hfd hh]
          exact List.getElem?_set_eq hlen
        · refine runFrom_unlink cfg _ i { pr with phase := .unlink r } r rest
            ?_ rfl hcnt'
          rw [stepEq_close_keep cfg s i j pr r h hph hfd hh]
          exact List.getElem?_set_eq hlen
      | none =>
        refine runFrom_unlink cfg _ i { pr with phase := .unlink r } r rest
          ?_ rfl hcnt'
        rw [stepEq_close_nofd cfg s i pr r h hph hfd]
        exact List.getElem?_set_eq hlen
    · have hcnt' : 2 ≤ rest.count p := by
        rwa [List.count_cons_of_ne (by simpa using Ne.symm hip)] at hcnt
      exact ih _ _ (by rw [step_procs_frame cfg s i p hip]; exact h) hph hcnt'

theorem runFrom_wait_ok (cfg : Cfg) (s : St) (p w : Nat) (pr : Proc)
    (sched : List Nat) (hc : s.completed = true)
    (h : s.procs[p]? = some pr) (hph : pr.phase = .wait w) (hw : w < cfg.maxW)
    (hcnt : 3 ≤ sched.count p) :
    ∃ pr', (runFrom cfg s sched).procs[p]? = some pr' ∧
      pr'.phase = .done .ok := by
  induction sched generalizing s pr with
  | nil => simp [List.count_nil] at hcnt
  | cons i rest ih =>
    simp only [runFrom]
    have hlen : p < s.procs.length := (List.getElem?_eq_some.mp h).1
    by_cases hip : i = p
    · subst hip
      have hcnt' : 2 ≤ rest.count i := by
        rw [List.count_cons_self] at hcnt; omega
      refine runFrom_close cfg _ i { pr with phase := .close .ok } .ok rest
        ?_ rfl hcnt'
      rw [stepEq_wait_done cfg s i w pr h hph hw hc]
      exact List.getElem?_set_eq hlen
    · have hcnt' : 3 ≤ rest.count p := by
        rwa [List.count_cons_of_ne (by simpa using Ne.symm hip)] at hcnt
      exact ih _ _ (step_completed_mono cfg s i hc)
        (by rw [step_procs_frame cfg s i p hip]; exact h) hph hcnt'

theorem fdBound_preserve (s : St) (i : Nat) (pr prNew : Proc) (m : Nat)
    (hpi : s.procs[i]? = some pr) (hfdNew : prNew.fd = pr.fd)
    (hmono : s.nextInode ≤ m)
    (hB : ∀ (p : Nat) (pr' : Proc) (j : Nat), s.procs[p]? = some pr' → pr'.fd = some j → j < s.nextInode) :
    ∀ (p : Nat) (pr' : Proc) (j : Nat), (s.procs.set i prNew)[p]? = some pr' → pr'.fd = some j →
      j < m := by
  intro p pr' j hp' hfd'
  have hlen : i < s.procs.length := (List.getElem?_eq_some.mp hpi).1
  rw [lookup_set _ _ _ hlen] at hp'
  split_ifs at hp' with hpe
  · have hpr' := Option.some.inj hp'
    subst hpr'
    rw [hfdNew] at hfd'
    exact lt_of_lt_of_le (hB i pr j hpi hfd') hmono
  · exact lt_of_lt_of_le (hB p pr' j hp' hfd') hmono

theorem wbAll_preserve (s : St) (i : Nat) (pr prNew : Proc)
    (hpi : s.procs[i]? = some pr) (hwbNew : prNew.wbeh = pr.wbeh)
    (hA : ∀ (p : Nat) (pr' : Proc), s.procs[p]? = some pr' →
      pr'.wbeh = DoWork.succeeds) :
    ∀ (p : Nat) (pr' : Proc), (s.procs.set i prNew)[p]? = some pr' →
      pr'.wbeh = DoWork.succeeds := by
  intro p pr' hp'
  have hlen : i < s.procs.length := (List.getElem?_eq_some.mp hpi).1
  rw [lookup_set _ _ _ hlen] at hp'
  split_ifs at hp' with hpe
  · have hpr' := Option.some.inj hp'
    subst hpr'
    rw [hwbNew]
    exact hA i pr hpi
  · exact hA p pr' hp'

theorem hold_frame (s : St) (i : Nat) (pr prNew : Proc)
    (hpi : s.procs[i]? = some pr)
    (hNewNotD : prNew.phase ≠ .dbl) (hNewNotW : prNew.phase ≠ .work)
    (hH : ∀ (p : Nat) (pr' : Proc), s.procs[p]? = some pr' →
      pr'.phase = .dbl ∨ pr'.phase = .work →
      ∃ j, pr'.fd = some j ∧ s.holders j = some p) :
    ∀ (p : Nat) (pr' : Proc), (s.procs.set i prNew)[p]? = some pr' →
      pr'.phase = .dbl ∨ pr'.phase = .work →
      ∃ j, pr'.fd = some j ∧ s.holders j = some p := by
  intro p pr' hp' hdw
  have hlen : i < s.procs.length := (List.getElem?_eq_some.mp hpi).1
  rw [lookup_set _ _ _ hlen] at hp'
  split_ifs at hp' with hpe
  · have hpr' := Option.some.inj hp'
    subst hpr'
    rcases hdw with h | h
    · exact absurd h hNewNotD
    · exact absurd h hNewNotW
  · exact hH p pr' hp' hdw

theorem wWitness_frame (s : St) (i : Nat) (pr prNew : Proc) (ev' : List Ev)
    (hpi : s.procs[i]? = some pr)
    (hev : ev'.countP isWorkStart = s.events.countP isWorkStart)
    (hOldNotW : pr.phase ≠ .work) (hW : WorkCore s) :
    ev'.countP isWorkStart = 1 → s.completed = false →
    ∃ (p : Nat) (pr' : Proc), (s.procs.set i prNew)[p]? = some pr' ∧
      pr'.phase = .work := by
  intro h1 h0
  have hlen : i < s.procs.length := (List.getElem?_eq_some.mp hpi).1
  rw [hev] at h1
  obtain ⟨q, prq, hq, hphq⟩ := hW.wWitness h1 h0
  by_cases hqe : q = i
  · subst hqe
    rw [hpi] at hq
    have := Option.some.inj hq
    subst this
    exact absurd hphq hOldNotW
  · refine ⟨q, prq, ?_, hphq⟩
    rw [lookup_set _ _ _ hlen]
    simp [hqe, hq]

theorem workCore_boring (s : St) (i : Nat) (pr prNew : Proc) (ev' : List Ev)
    (path' : Option Nat) (wd' : Bool)
    (hpi : s.procs[i]? = some pr) (hW : WorkCore s)
    (hfdNew : prNew.fd = pr.fd) (hwbNew : prNew.wbeh = pr.wbeh)
    (hNewNotD : prNew.phase ≠ .dbl) (hNewNotW : prNew.phase ≠ .work)
    (hOldNotW : pr.phase ≠ .work)
    (hpath : path' = s.path ∨ path' = none)
    (hev : ev'.countP isWorkStart = s.events.countP isWorkStart) :
    WorkCore { s with
      workDir := wd'
      path := path'
      procs := s.procs.set i prNew
      events := ev' } := by
  refine ⟨?_, ?_, ?_, ?_, ?_, ?_⟩
  · exact fdBound_preserve s i pr prNew _ hpi hfdNew (le_refl _) hW.fdBound
  · intro j hj
    have hj2 : path' = some j := hj
    rcases hpath with h | h
    · rw [h] at hj2
      exact hW.pathBound j hj2
    · rw [h] at hj2
      exact absurd hj2 (by simp)
  · exact hold_frame s i pr prNew hpi hNewNotD hNewNotW hW.hold
  · exact wbAll_preserve s i pr prNew hpi hwbNew hW.wbAll
  · show ev'.countP isWorkStart ≤ 1
    rw [hev]
    exact hW.wCount
  · exact wWitness_frame s i pr prNew ev' hpi hev hOldNotW hW

theorem workCore_step (cfg : Cfg) (s : St) (i : Nat) (hW : WorkCore s)
    (hn1 : (step cfg s i).nextInode ≤ 1) : WorkCore (step cfg s i) := by
  have hn0 : s.nextInode ≤ 1 := le_trans (step_nextInode_mono cfg s i) hn1
  cases hpi : s.procs[i]? with
  | none => rw [stepEq_none cfg s i hpi]; exact hW
  | some pr =>
    have hlen : i < s.procs.length := (List.getElem?_eq_some.mp hpi).1
    have hws : pr.wbeh = DoWork.succeeds := hW.wbAll i pr hpi
    cases hph : pr.phase with
    | start =>
        rw [stepEq_start cfg s i pr hpi hph]
        exact workCore_boring s i pr { pr with phase := .check } _ s.path true
          hpi hW rfl rfl (by simp) (by simp) (by simp [hph]) (Or.inl rfl)
          (by simp [isWorkStart])
    | check =>
        rcases Bool.eq_false_or_eq_true s.completed with hc | hc
        · rw [stepEq_check_t cfg s i pr hpi hph hc]
          exact workCore_boring s i pr { pr with phase := .done .ok } _
            s.path s.workDir hpi hW rfl rfl (by simp) (by simp)
            (by simp [hph]) (Or.inl rfl) (by simp [isWorkStart])
        · rw [stepEq_check_f cfg s i pr hpi hph hc]
          exact workCore_boring s i pr { pr with phase := .opn } s.events
            s.path s.workDir hpi hW rfl rfl (by simp) (by simp)
            (by simp [hph]) (Or.inl rfl) rfl
    | opn =>
        cases hpath : s.path with
        | some j =>
            rw [stepEq_opn_some cfg s i j pr hpi hph hpath]
            refine ⟨?_, ?_, ?_, ?_, ?_, ?_⟩
            · intro p pr' j' hp' hfd'
              rw [lookup_set _ _ _ hlen] at hp'
              split_ifs at hp' with hpe
              · have hpr' := Option.some.inj hp'
                subst hpr'
                have hj' : j' = j := by simpa using hfd'.symm
                subst hj'
                exact hW.pathBound j' hpath
              · exact hW.fdBound p pr' j' hp' hfd'
            · exact hW.pathBound
            · exact hold_frame s i pr _ hpi (by simp) (by simp) hW.hold
            · exact wbAll_preserve s i pr _ hpi rfl hW.wbAll
            · show (s.events ++ [Ev.openE i false]).countP isWorkStart ≤ 1
              rw [List.countP_append]
              simpa [isWorkStart] using hW.wCount
            · exact wWitness_frame s i pr _ _ hpi
                (by rw [List.countP_append]; simp [isWorkStart])
                (by simp [hph]) hW
        | none =>
            rw [stepEq_opn_none cfg s i pr hpi hph hpath]
            refine ⟨?_, ?_, ?_, ?_, ?_, ?_⟩
            · intro p pr' j' hp' hfd'
              rw [lookup_set _ _ _ hlen] at hp'
              split_ifs at hp' with hpe
              · have hpr' := Option.some.inj hp'
                subst hpr'
                have hj' : j' = s.nextInode := by simpa using hfd'.symm
                subst hj'
                exact Nat.lt_succ_self _
              · exact Nat.lt_succ_of_lt (hW.fdBound p pr' j' hp' hfd')
            · intro j' hj'
              have : j' = s.nextInode := by simpa using hj'.symm
              subst this
              exact Nat.lt_succ_self _
            · exact hold_frame s i pr _ hpi (by simp) (by simp) hW.hold
            · exact wbAll_preserve s i pr _ hpi rfl hW.wbAll
            · show (s.events ++ [Ev.openE i true]).countP isWorkStart ≤ 1
              rw [List.countP_append]
              simpa [isWorkStart] using hW.wCount
            · exact wWitness_frame s i pr _ _ hpi
                (by rw [List.countP_append]; simp [isWorkStart])
                (by simp [hph]) hW
    | flock =>
        cases hfd : pr.fd with
        | none => rw [stepEq_flock_nofd cfg s i pr hpi hph hfd]; exact hW
        | some j =>
            cases hh : s.holders j with
            | none =>
                rw [stepEq_flock_acq cfg s i j pr hpi hph hfd hh]
                refine ⟨?_, ?_, ?_, ?_, ?_, ?_⟩
                · exact fdBound_preserve s i pr _ _ hpi rfl (le_refl _) hW.fdBound
                · exact hW.pathBound
                · intro p pr' hp' hdw
                  rw [lookup_set _ _ _ hlen] at hp'
                  split_ifs at hp' with hpe
                  · have hpr' := Option.some.inj hp'
                    subst hpr'
                    subst hpe
                    exact ⟨j, by simpa using hfd, by simp⟩
                  · obtain ⟨j', hfd', hh'⟩ := hW.hold p pr' hp' hdw
                    refine ⟨j', hfd', ?_⟩
                    by_cases hje : j' = j
                    · subst hje
                      rw [hh'] at hh
                      exact absurd hh (by simp)
                    · simpa [hje] using hh'
                · exact wbAll_preserve s i pr _ hpi rfl hW.wbAll
                · show (s.events ++ [Ev.flockAcq i]).countP isWorkStart ≤ 1
                  rw [List.countP_append]
                  simpa [isWorkStart] using hW.wCount
                · exact wWitness_frame s i pr _ _ hpi
                    (by rw [List.countP_append]; simp [isWorkStart])
                    (by simp [hph]) hW
            | some q =>
                rw [stepEq_flock_busy cfg s i j q pr hpi hph hfd hh]
                exact workCore_boring s i pr { pr with phase := .wait 0 } _
                  s.path s.workDir hpi hW rfl rfl (by simp) (by simp)
                  (by simp [hph]) (Or.inl rfl) (by simp [isWorkStart])
    | dbl =>
        rcases Bool.eq_false_or_eq_true s.completed with hc | hc
        · rw [stepEq_dbl_t cfg s i pr hpi hph hc]
          exact workCore_boring s i pr { pr with phase := .close .ok } _
            s.path s.workDir hpi hW rfl rfl (by simp) (by simp)
            (by simp [hph]) (Or.inl rfl) (by simp [isWorkStart])
        · rw [stepEq_dbl_f cfg s i pr hpi hph hc]
          have hws0 : workStarts s = 0 := by
            by_contra hne
            have h1 : workStarts s = 1 := by
              have := hW.wCount
              omega
            obtain ⟨q, prq, hq, hphq⟩ := hW.wWitness h1 hc
            obtain ⟨jq, hfdq, hhq⟩ := hW.hold q prq hq (Or.inr hphq)
            obtain ⟨ji, hfdi, hhi⟩ := hW.hold i pr hpi (Or.inl hph)
            have hjq : jq = 0 := by
              have := hW.fdBound q prq jq hq hfdq
              omega
            have hji : ji = 0 := by
              have := hW.fdBound i pr ji hpi hfdi
              omega
            rw [hjq] at hhq
            rw [hji] at hhi
            rw [hhq] at hhi
            have hqi : q = i := by simpa using hhi
            subst hqi
            rw [hpi] at hq
            have := Option.some.inj hq
            subst this
            rw [hph] at hphq
            exact absurd hphq (by simp)
          refine ⟨?_, ?_, ?_, ?_, ?_, ?_⟩
          · exact fdBound_preserve s i pr _ _ hpi rfl (le_refl _) hW.fdBound
          · exact hW.pathBound
          · intro p pr' hp' hdw
            rw [lookup_set _ _ _ hlen] at hp'
            split_ifs at hp' with hpe
            · have hpr' := Option.some.inj hp'
              subst hpr'
              subst hpe
              obtain ⟨j, hfdj, hhj⟩ := hW.hold p pr hpi (Or.inl hph)
              exact ⟨j, by simpa using hfdj, hhj⟩
            · exact hW.hold p pr' hp' hdw
          · exact wbAll_preserve s i pr _ hpi rfl hW.wbAll
          · show (s.events ++ [Ev.workStart i]).countP isWorkStart ≤ 1
            rw [List.countP_append]
            have h0 : s.events.countP isWorkStart = 0 := hws0
            rw [h0]
            simp [isWorkStart]
          · intro h1 h0
            refine ⟨i, { pr with phase := .work }, ?_, by simp⟩
            rw [lookup_set _ _ _ hlen]
            simp
    | work =>
        rw [stepEq_work_ok cfg s i pr hpi hph hws]
        refine ⟨?_, ?_, ?_, ?_, ?_, ?_⟩
        · exact fdBound_preserve s i pr _ _ hpi rfl (le_refl _) hW.fdBound
        · exact hW.pathBound
        · exact hold_frame s i pr _ hpi (by simp) (by simp) hW.hold
        · exact wbAll_preserve s i pr _ hpi rfl hW.wbAll
        · show (s.events ++ [Ev.workEnd i true]).countP isWorkStart ≤ 1
          rw [List.countP_append]
          simpa [isWorkStart] using hW.wCount
        · intro h1 h0
          exact absurd h0 (by simp)
    | wait w =>
        by_cases hlt : w < cfg.maxW
        · rcases Bool.eq_false_or_eq_true s.completed with hc | hc
          · rw [stepEq_wait_done cfg s i w pr hpi hph hlt hc]
            exact workCore_boring s i pr { pr with phase := .close .ok } _
              s.path s.workDir hpi hW rfl rfl (by simp) (by simp)
              (by simp [hph]) (Or.inl rfl) (by simp [isWorkStart])
          · cases hpath : s.path with
            | none =>
                rw [stepEq_wait_break cfg s i w pr hpi hph hlt hc hpath]
                exact workCore_boring s i pr { pr with phase := .close .ok } _
                  s.path s.workDir hpi hW rfl rfl (by simp) (by simp)
                  (by simp [hph]) (Or.inl rfl) (by simp [isWorkStart])
            | some j =>
                rw [stepEq_wait_poll cfg s i w j pr hpi hph hlt hc hpath]
                exact workCore_boring s i pr { pr with phase := .wait (w + cfg.c) }
                  _ s.path s.workDir hpi hW rfl rfl (by simp) (by simp)
                  (by simp [hph]) (Or.inl rfl) (by simp [isWorkStart])
        · rw [stepEq_wait_to cfg s i w pr hpi hph hlt]
          exact workCore_boring s i pr { pr with phase := .close .errTimeout } _
            s.path s.workDir hpi hW rfl rfl (by simp) (by simp)
            (by simp [hph]) (Or.inl rfl) (by simp [isWorkStart])
    | close r =>
        cases hfd : pr.fd with
        | none =>
            rw [stepEq_close_nofd cfg s i pr r hpi hph hfd]
            exact workCore_boring s i pr { pr with phase := .unlink r } _
              s.path s.workDir hpi hW rfl rfl (by simp) (by simp)
              (by simp [hph]) (Or.inl rfl) (by simp [isWorkStart])
        | some j =>
            by_cases hh : s.holders j = some i
            · rw [stepEq_close_rel cfg s i j pr r hpi hph hfd hh]
              refine ⟨?_, ?_, ?_, ?_, ?_, ?_⟩
              · exact fdBound_preserve s i pr _ _ hpi rfl (le_refl _) hW.fdBound
              · exact hW.pathBound
              · intro p pr' hp' hdw
                rw [lookup_set _ _ _ hlen] at hp'
                split_ifs at hp' with hpe
                · have hpr' := Option.some.inj hp'
                  subst hpr'
                  rcases hdw with hcontra | hcontra <;> simp at hcontra
                · obtain ⟨j', hfd', hh'⟩ := hW.hold p pr' hp' hdw
                  refine ⟨j', hfd', ?_⟩
                  by_cases hje : j' = j
                  · subst hje
                    rw [hh'] at hh
                    have : p = i := by simpa using hh
                    exact absurd this hpe
                  · simpa [hje] using hh'
              · exact wbAll_preserve s i pr _ hpi rfl hW.wbAll
              · show (s.events ++ [Ev.closeE i]).countP isWorkStart ≤ 1
                rw [List.countP_append]
                simpa [isWorkStart] using hW.wCount
              · exact wWitness_frame s i pr _ _ hpi
                  (by rw [List.countP_append]; simp [isWorkStart])
                  (by simp [hph]) hW
            · rw [stepEq_close_keep cfg s i j pr r hpi hph hfd hh]
              exact workCore_boring s i pr { pr with phase := .unlink r } _
                s.path s.workDir hpi hW rfl rfl (by simp) (by simp)
                (by simp [hph]) (Or.inl rfl) (by simp [isWorkStart])
    | unlink r =>
        cases hpath : s.path with
        | some j =>
            rw [stepEq_unlink_some cfg s i j pr r hpi hph hpath]
            exact workCore_boring s i pr { pr with phase := .done r } _
              none s.workDir hpi hW rfl rfl (by simp) (by simp)
              (by simp [hph]) (Or.inr rfl) (by simp [isWorkStart])
        | none =>
            rw [stepEq_unlink_none cfg s i pr r hpi hph hpath]
            exact workCore_boring s i pr { pr with phase := .done r } _
              s.path s.workDir hpi hW rfl rfl (by simp) (by simp)
              (by simp [hph]) (Or.inl rfl) (by simp [isWorkStart])
    | done r =>
        rw [stepEq_done cfg s i pr r hpi hph]
        exact hW

theorem workCore_runFrom (cfg : Cfg) (s : St) (sched : List Nat)
    (hW : WorkCore s) (hn : (runFrom cfg s sched).nextInode ≤ 1) :
    WorkCore (runFrom cfg s sched) := by
  induction sched generalizing s with
  | nil => exact hW
  | cons i rest ih =>
    simp only [runFrom] at hn ⊢
    exact ih _ (workCore_step cfg s i hW
      (le_trans (runFrom_nextInode_mono cfg _ rest) hn)) hn

theorem workCore_init (wd : Bool) (ws : List DoWork)
    (hsucc : ∀ wb ∈ ws, wb = DoWork.succeeds) :
    WorkCore (initSt false wd ws) := by
  have hproc : ∀ (p : Nat) (pr : Proc),
      (initSt false wd ws).procs[p]? = some pr →
      pr.phase = .start ∧ pr.fd = none ∧ pr.wbeh ∈ ws := by
    intro p pr hp
    have : (ws.map (fun b =>
        ({ phase := .start, fd := none, wbeh := b } : Proc)))[p]? =
        (ws[p]?).map (fun b =>
        ({ phase := .start, fd := none, wbeh := b } : Proc)) :=
      List.getElem?_map _ ws p
    rw [show (initSt false wd ws).procs = ws.map (fun b =>
        ({ phase := .start, fd := none, wbeh := b } : Proc)) from rfl,
      this] at hp
    cases hb : ws[p]? with
    | none => rw [hb] at hp; exact absurd hp (by simp)
    | some b =>
      rw [hb] at hp
      have := Option.some.inj hp
      subst this
      exact ⟨rfl, rfl, List.getElem?_mem hb⟩
  refine ⟨?_, ?_, ?_, ?_, ?_, ?_⟩
  · intro p pr j hp hfd
    obtain ⟨_, hfd0, _⟩ := hproc p pr hp
    rw [hfd0] at hfd
    exact absurd hfd (by simp)
  · intro j hj
    exact absurd hj (by simp [initSt])
  · intro p pr hp hdw
    obtain ⟨hph0, _, _⟩ := hproc p pr hp
    rcases hdw with h | h <;> rw [hph0] at h <;> exact absurd h (by simp)
  · intro p pr hp
    obtain ⟨_, _, hmem⟩ := hproc p pr hp
    exact hsucc _ hmem
  · show ([] : List Ev).countP isWorkStart ≤ 1
    simp
  · intro h1 _
    exact absurd h1 (by simp [workStarts, initSt])

/-! ### C1: mutual exclusion of `do_work` across pods -/

/-- C1 counterexample: three concurrent invocations with a succeeding
`do_work`, `max_wait = 60`, `poll = 30`. Process 0 creates the lock
file, acquires the `flock`, passes the double check and is running
`do_work`; process 1 opens the same file, finds the lock busy, waits,
times out, and — in its `finally` cleanup — unlinks the lock file that
process 0 still holds; process 2 then creates a fresh lock file (new
inode), acquires its `flock`, passes the double check (work still
incomplete) and invokes `do_work` a second time. So `do_work` runs
twice while `is_complete()` is false at call time, refuting the
at-most-once part of the claim. -/

theorem coordinate_pod_work_exclusive_counterexample :
    workStarts (run ⟨60, 30⟩ false false
      [DoWork.succeeds, DoWork.succeeds, DoWork.succeeds]
      [0, 0, 0, 0, 0, 1, 1, 1, 1, 1, 1, 1, 1, 1, 2, 2, 2, 2, 2]) = 2 ∧
    ¬ (∀ (cfg : Cfg) (wd : Bool) (ws : List DoWork) (sched : List Nat),
        (∀ wb ∈ ws, wb = DoWork.succeeds) →
        workStarts (run cfg false wd ws sched) ≤ 1 ∧
        ((run cfg false wd ws sched).completed = true →
          ∀ (p : Nat) (pr : Proc) (r : Res),
            (run cfg false wd ws sched).procs[p]? = some pr →
            pr.phase = .done r → r = .ok)) := by
  refine ⟨by decide, fun h => ?_⟩
  exact absurd (h ⟨60, 30⟩ false
    [DoWork.succeeds, DoWork.succeeds, DoWork.succeeds]
    [0, 0, 0, 0, 0, 1, 1, 1, 1, 1, 1, 1, 1, 1, 2, 2, 2, 2, 2]
    (by decide)).1 (by decide)

/-- C1 amended: with a succeeding `do_work`, the at-most-once guarantee
holds for every schedule in which the lock path is created at most once
(no caller re-creates the lock file after some caller's cleanup removed
it — equivalently, at most one inode is ever allocated); without that
proviso the counterexample applies. And any caller still in its wait
loop within its wait budget when `is_complete()` becomes true finishes
with a successful (non-error) return, given it is scheduled at least
three more times (poll, close, unlink). -/

theorem coordinate_pod_work_exclusive_amended :
    (∀ (cfg : Cfg) (wd : Bool) (ws : List DoWork) (sched : List Nat),
      (∀ wb ∈ ws, wb = DoWork.succeeds) →
      (run cfg false wd ws sched).nextInode ≤ 1 →
      workStarts (run cfg false wd ws sched) ≤ 1) ∧
    (∀ (cfg : Cfg) (s : St) (p w : Nat) (pr : Proc) (sched : List Nat),
      s.completed = true → s.procs[p]? = some pr → pr.phase = .wait w →
      w < cfg.maxW → 3 ≤ sched.count p →
      ∃ pr', (runFrom cfg s sched).procs[p]? = some pr' ∧
        pr'.phase = .done .ok) := by
  constructor
  · intro cfg wd ws sched hsucc hn
    exact (workCore_runFrom cfg _ sched (workCore_init wd ws hsucc) hn).wCount
  · intro cfg s p w pr sched hc hp hph hw hcnt
    exact runFrom_wait_ok cfg s p w pr sched hc hp hph hw hcnt

/-- C1 amended witness: a two-process schedule where process 0 performs
the work to completion and process 1 then takes the fast path (single
inode, one `do_work`); and a waiter at `waited = 0` with the work
complete that reaches `done ok` in three steps. -/

theorem coordinate_pod_work_exclusive_amended_witness :
    ((∀ wb ∈ [DoWork.succeeds, DoWork.succeeds], wb = DoWork.succeeds) ∧
      (run ⟨60, 30⟩ false false [DoWork.succeeds, DoWork.succeeds]
        [0, 0, 0, 0, 0, 0, 0, 0, 1, 1]).nextInode ≤ 1 ∧
      workStarts (run ⟨60, 30⟩ false false [DoWork.succeeds, DoWork.succeeds]
        [0, 0, 0, 0, 0, 0, 0, 0, 1, 1]) ≤ 1) ∧
    (waiterSt.completed = true ∧ (0 : Nat) < 60 ∧
      3 ≤ ([0, 0, 0] : List Nat).count 0 ∧
      ∃ pr', (runFrom ⟨60, 30⟩ waiterSt [0, 0, 0]).procs[0]? = some pr' ∧
        pr'.phase = .done .ok) := by
  refine ⟨⟨by decide, by decide, ?_⟩, rfl, by decide, by decide, ?_⟩
  · exact coordinate_pod_work_exclusive_amended.1 ⟨60, 30⟩ false
      [DoWork.succeeds, DoWork.succeeds]
      [0, 0, 0, 0, 0, 0, 0, 0, 1, 1] (by decide) (by decide)
  · exact coordinate_pod_work_exclusive_amended.2 ⟨60, 30⟩ waiterSt 0 0
      { phase := .wait 0, fd := some 0, wbeh := .succeeds } [0, 0, 0]
      rfl rfl rfl (by decide) (by decide)

/-! ### Lock file lifecycle on the slow path -/

theorem runFrom_ev_mono (cfg : Cfg) (s : St) (sched : List Nat) (e : Ev)
    (h : e ∈ s.events) : e ∈ (runFrom cfg s sched).events := by
  induction sched generalizing s with
  | nil => exact h
  | cons i rest ih =>
    obtain ⟨tail, htail⟩ := step_events_mono cfg s i
    exact ih _ (by rw [htail]; exact List.mem_append_left _ h)

theorem runFrom_unlink_ev (cfg : Cfg) (s : St) (p : Nat) (pr : Proc) (r : Res)
    (sched : List Nat) (h : s.procs[p]? = some pr) (hph : pr.phase = .unlink r)
    (hcnt : 1 ≤ sched.count p) :
    ∃ f, Ev.unlinkE p f ∈ (runFrom cfg s sched).events := by
  induction sched generalizing s pr with
  | nil => simp [List.count_nil] at hcnt
  | cons i rest ih =>
    simp only [runFrom]
    by_cases hip : i = p
    · subst hip
      cases hpath : s.path with
      | some j =>
        refine ⟨true, runFrom_ev_mono cfg _ rest _ ?_⟩
        rw [stepEq_unlink_some cfg s i j pr r h hph hpath]
        simp
      | none =>
        refine ⟨false, runFrom_ev_mono cfg _ rest _ ?_⟩
        rw [stepEq_unlink_none cfg s i pr r h hph hpath]
        simp
    · have hcnt' : 1 ≤ rest.count p := by
        rwa [List.count_cons_of_ne (by simpa using Ne.symm hip)] at hcnt
      exact ih _ _ (by rw [step_procs_frame cfg s i p hip]; exact h) hph hcnt'

theorem runFrom_close_ev (cfg : Cfg) (s : St) (p : Nat) (pr : Proc) (r : Res)
    (sched : List Nat) (h : s.procs[p]? = some pr) (hph : pr.phase = .close r)
    (hcnt : 2 ≤ sched.count p) :
    ∃ f, Ev.unlinkE p f ∈ (runFrom cfg s sched).events := by
  induction sched generalizing s pr with
  | nil => simp [List.count_nil] at hcnt
  | cons i rest ih =>
    simp only [runFrom]
    have hlen : p < s.procs.length := (List.getElem?_eq_some.mp h).1
    by_cases hip : i = p
    · subst hip
      have hcnt' : 1 ≤ rest.count i := by
        rw [List.count_cons_self] at hcnt; omega
      cases hfd : pr.fd with
      | some j =>
        by_cases hh : s.holders j = some i
        · refine runFrom_unlink_ev cfg _ i { pr with phase := .unlink r } r
            rest ?_ rfl hcnt'
          rw [stepEq_close_rel cfg s i j pr r h hph hfd hh]
          exact List.getElem?_set_eq hlen
        · refine runFrom_unlink_ev cfg _ i { pr with phase := .unlink r } r
            rest ?_ rfl hcnt'
          rw [stepEq_close_keep cfg s i j pr r h hph hfd hh]
          exact List.getElem?_set_eq hlen
      | none =>
        refine runFrom_unlink_ev cfg _ i { pr with phase := .unlink r } r
          rest ?_ rfl hcnt'
        rw [stepEq_close_nofd cfg s i pr r h hph hfd]
        exact List.getElem?_set_eq hlen
    · have hcnt' : 2 ≤ rest.count p := by
        rwa [List.count_cons_of_ne (by simpa using Ne.symm hip)] at hcnt
      exact ih _ _ (by rw [step_procs_frame cfg s i p hip]; exact h) hph hcnt'

theorem openFd_preserve (s : St) (i : Nat) (pr prNew : Proc) (tail : List Ev)
    (hpi : s.procs[i]? = some pr) (hfdNew : prNew.fd = pr.fd)
    (hImp : postOpenPhase prNew.phase → postOpenPhase pr.phase)
    (hO : ∀ (p : Nat) (pr' : Proc), s.procs[p]? = some pr' →
      postOpenPhase pr'.phase →
      (∃ j, pr'.fd = some j) ∧ ∃ b, Ev.openE p b ∈ s.events) :
    ∀ (p : Nat) (pr' : Proc), (s.procs.set i prNew)[p]? = some pr' →
      postOpenPhase pr'.phase →
      (∃ j, pr'.fd = some j) ∧ ∃ b, Ev.openE p b ∈ s.events ++ tail := by
  intro p pr' hp' hpo
  have hlen : i < s.procs.length := (List.getElem?_eq_some.mp hpi).1
  rw [lookup_set _ _ _ hlen] at hp'
  split_ifs at hp' with hpe
  · have hpr' := Option.some.inj hp'
    subst hpr'
    subst hpe
    obtain ⟨hfd, b, hb⟩ := hO p pr hpi (hImp hpo)
    exact ⟨by rw [hfdNew]; exact hfd, b, List.mem_append_left _ hb⟩
  · obtain ⟨hfd, b, hb⟩ := hO p pr' hp' hpo
    exact ⟨hfd, b, List.mem_append_left _ hb⟩

theorem flockEv_preserve (s : St) (tail : List Ev)
    (htail : ∀ p : Nat, Ev.flockAcq p ∉ tail ∧ Ev.flockBusy p ∉ tail)
    (hF : ∀ p : Nat,
      Ev.flockAcq p ∈ s.events ∨ Ev.flockBusy p ∈ s.events →
      ∃ b, Ev.openE p b ∈ s.events) :
    ∀ p : Nat,
      Ev.flockAcq p ∈ s.events ++ tail ∨ Ev.flockBusy p ∈ s.events ++ tail →
      ∃ b, Ev.openE p b ∈ s.events ++ tail := by
  intro p hp
  have hin : Ev.flockAcq p ∈ s.events ∨ Ev.flockBusy p ∈ s.events := by
    rcases hp with h | h
    · rcases List.mem_append.mp h with h' | h'
      · exact Or.inl h'
      · exact absurd h' (htail p).1
    · rcases List.mem_append.mp h with h' | h'
      · exact Or.inr h'
      · exact absurd h' (htail p).2
  obtain ⟨b, hb⟩ := hF p hin
  exact ⟨b, List.mem_append_left _ hb⟩

theorem openInv_step (cfg : Cfg) (s : St) (i : Nat) (hI : OpenInv s) :
    OpenInv (step cfg s i) := by
  cases hpi : s.procs[i]? with
  | none => rw [stepEq_none cfg s i hpi]; exact hI
  | some pr =>
    have hlen : i < s.procs.length := (List.getElem?_eq_some.mp hpi).1
    cases hph : pr.phase with
    | start =>
        rw [stepEq_start cfg s i pr hpi hph]
        exact ⟨openFd_preserve s i pr _ _ hpi rfl (by simp [postOpenPhase])
          hI.openFd, flockEv_preserve s _ (by simp) hI.flockEv⟩
    | check =>
        rcases Bool.eq_false_or_eq_true s.completed with hc | hc
        · rw [stepEq_check_t cfg s i pr hpi hph hc]
          exact ⟨openFd_preserve s i pr _ _ hpi rfl (by simp [postOpenPhase])
            hI.openFd, flockEv_preserve s _ (by simp) hI.flockEv⟩
        · rw [stepEq_check_f cfg s i pr hpi hph hc]
          refine ⟨?_, hI.flockEv⟩
          intro p pr' hp' hpo
          rw [lookup_set _ _ _ hlen] at hp'
          split_ifs at hp' with hpe
          · have := Option.some.inj hp'
            subst this
            exact absurd hpo (by simp [postOpenPhase])
          · exact hI.openFd p pr' hp' hpo
    | opn =>
        cases hpath : s.path with
        | some j =>
            rw [stepEq_opn_some cfg s i j pr hpi hph hpath]
            refine ⟨?_, flockEv_preserve s _ (by simp) hI.flockEv⟩
            intro p pr' hp' hpo
            rw [lookup_set _ _ _ hlen] at hp'
            split_ifs at hp' with hpe
            · have := Option.some.inj hp'
              subst this
              subst hpe
              exact ⟨⟨j, rfl⟩, false, by simp⟩
            · obtain ⟨hfd, b, hb⟩ := hI.openFd p pr' hp' hpo
              exact ⟨hfd, b, List.mem_append_left _ hb⟩
        | none =>
            rw [stepEq_opn_none cfg s i pr hpi hph hpath]
            refine ⟨?_, flockEv_preserve s _ (by simp) hI.flockEv⟩
            intro p pr' hp' hpo
            rw [lookup_set _ _ _ hlen] at hp'
            split_ifs at hp' with hpe
            · have := Option.some.inj hp'
              subst this
              subst hpe
              exact ⟨⟨s.nextInode, rfl⟩, true, by simp⟩
            · obtain ⟨hfd, b, hb⟩ := hI.openFd p pr' hp' hpo
              exact ⟨hfd, b, List.mem_append_left _ hb⟩
    | flock =>
        cases hfd : pr.fd with
        | none => rw [stepEq_flock_nofd cfg s i pr hpi hph hfd]; exact hI
        | some j =>
            cases hh : s.holders j with
            | none =>
                rw [stepEq_flock_acq cfg s i j pr hpi hph hfd hh]
                refine ⟨openFd_preserve s i pr _ _ hpi rfl
                  (by simp [postOpenPhase, hph]) hI.openFd, ?_⟩
                intro p hp
                have hsplit : (Ev.flockAcq p ∈ s.events ∨
                    Ev.flockBusy p ∈ s.events) ∨ p = i := by
                  rcases hp with h | h <;>
                    rcases List.mem_append.mp h with h' | h'
                  · exact Or.inl (Or.inl h')
                  · simp at h'
                    exact Or.inr h'
                  · exact Or.inl (Or.inr h')
                  · simp at h'
                rcases hsplit with hin | hpe
                · obtain ⟨b, hb⟩ := hI.flockEv p hin
                  exact ⟨b, List.mem_append_left _ hb⟩
                · subst hpe
                  obtain ⟨_, b, hb⟩ := hI.openFd p pr hpi
                    (by simp [postOpenPhase, hph])
                  exact ⟨b, List.mem_append_left _ hb⟩
            | some q =>
                rw [stepEq_flock_busy cfg s i j q pr hpi hph hfd hh]
                refine ⟨openFd_preserve s i pr _ _ hpi rfl
                  (by simp [postOpenPhase, hph]) hI.openFd, ?_⟩
                intro p hp
                have hsplit : (Ev.flockAcq p ∈ s.events ∨
                    Ev.flockBusy p ∈ s.events) ∨ p = i := by
                  rcases hp with h | h <;>
                    rcases List.mem_append.mp h with h' | h'
                  · exact Or.inl (Or.inl h')
                  · simp at h'
                  · exact Or.inl (Or.inr h')
                  · simp at h'
                    exact Or.inr h'
                rcases hsplit with hin | hpe
                · obtain ⟨b, hb⟩ := hI.flockEv p hin
                  exact ⟨b, List.mem_append_left _ hb⟩
                · subst hpe
                  obtain ⟨_, b, hb⟩ := hI.openFd p pr hpi
                    (by simp [postOpenPhase, hph])
                  exact ⟨b, List.mem_append_left _ hb⟩
    | dbl =>
        rcases Bool.eq_false_or_eq_true s.completed with hc | hc
        · rw [stepEq_dbl_t cfg s i pr hpi hph hc]
          exact ⟨openFd_preserve s i pr _ _ hpi rfl
            (by simp [postOpenPhase, hph]) hI.openFd,
            flockEv_preserve s _ (by simp) hI.flockEv⟩
        · rw [stepEq_dbl_f cfg s i pr hpi hph hc]
          exact ⟨openFd_preserve s i pr _ _ hpi rfl
            (by simp [postOpenPhase, hph]) hI.openFd,
            flockEv_preserve s _ (by simp) hI.flockEv⟩
    | work =>
        cases hw : pr.wbeh with
        | succeeds =>
          rw [stepEq_work_ok cfg s i pr hpi hph hw]
          exact ⟨openFd_preserve s i pr _ _ hpi rfl
            (by simp [postOpenPhase, hph]) hI.openFd,
            flockEv_preserve s _ (by simp) hI.flockEv⟩
        | raisesOS =>
          rw [stepEq_work_io cfg s i pr hpi hph hw]
          exact ⟨openFd_preserve s i pr _ _ hpi rfl
            (by simp [postOpenPhase, hph]) hI.openFd,
            flockEv_preserve s _ (by simp) hI.flockEv⟩
        | raisesOther =>
          rw [stepEq_work_other cfg s i pr hpi hph hw]
          exact ⟨openFd_preserve s i pr _ _ hpi rfl
            (by simp [postOpenPhase, hph]) hI.openFd,
            flockEv_preserve s _ (by simp) hI.flockEv⟩
    | wait w =>
        by_cases hlt : w < cfg.maxW
        · rcases Bool.eq_false_or_eq_true s.completed with hc | hc
          · rw [stepEq_wait_done cfg s i w pr hpi hph hlt hc]
            exact ⟨openFd_preserve s i pr _ _ hpi rfl
              (by simp [postOpenPhase, hph]) hI.openFd,
              flockEv_preserve s _ (by simp) hI.flockEv⟩
          · cases hpath : s.path with
            | none =>
                rw [stepEq_wait_break cfg s i w pr hpi hph hlt hc hpath]
                exact ⟨openFd_preserve s i pr _ _ hpi rfl
                  (by simp [postOpenPhase, hph]) hI.openFd,
                  flockEv_preserve s _ (by simp) hI.flockEv⟩
            | some j =>
                rw [stepEq_wait_poll cfg s i w j pr hpi hph hlt hc hpath]
                exact ⟨openFd_preserve s i pr _ _ hpi rfl
                  (by simp [postOpenPhase, hph]) hI.openFd,
                  flockEv_preserve s _ (by simp) hI.flockEv⟩
        · rw [stepEq_wait_to cfg s i w pr hpi hph hlt]
          exact ⟨openFd_preserve s i pr _ _ hpi rfl
            (by simp [postOpenPhase, hph]) hI.openFd,
            flockEv_preserve s _ (by simp) hI.flockEv⟩
    | close r =>
        cases hfd : pr.fd with
        | none =>
            rw [stepEq_close_nofd cfg s i pr r hpi hph hfd]
            exact ⟨openFd_preserve s i pr _ _ hpi rfl
              (by simp [postOpenPhase, hph]) hI.openFd,
              flockEv_preserve s _ (by simp) hI.flockEv⟩
        | some j =>
            by_cases hh : s.holders j = some i
            · rw [stepEq_close_rel cfg s i j pr r hpi hph hfd hh]
              exact ⟨openFd_preserve s i pr _ _ hpi rfl
                (by simp [postOpenPhase, hph]) hI.openFd,
                flockEv_preserve s _ (by simp) hI.flockEv⟩
            · rw [stepEq_close_keep cfg s i j pr r hpi hph hfd hh]
              exact ⟨openFd_preserve s i pr _ _ hpi rfl
                (by simp [postOpenPhase, hph]) hI.openFd,
                flockEv_preserve s _ (by simp) hI.flockEv⟩
    | unlink r =>
        cases hpath : s.path with
        | some j =>
            rw [stepEq_unlink_some cfg s i j pr r hpi hph hpath]
            exact ⟨openFd_preserve s i pr _ _ hpi rfl
              (by simp [postOpenPhase]) hI.openFd,
              flockEv_preserve s _ (by simp) hI.flockEv⟩
        | none =>
            rw [stepEq_unlink_none cfg s i pr r hpi hph hpath]
            exact ⟨openFd_preserve s i pr _ _ hpi rfl
              (by simp [postOpenPhase]) hI.openFd,
              flockEv_preserve s _ (by simp) hI.flockEv⟩
    | done r =>
        rw [stepEq_done cfg s i pr r hpi hph]
        exact hI

theorem openInv_runFrom (cfg : Cfg) (s : St) (sched : List Nat)
    (hI : OpenInv s) : OpenInv (runFrom cfg s sched) := by
  induction sched generalizing s with
  | nil => exact hI
  | cons i rest ih => exact ih _ (openInv_step cfg s i hI)

theorem openInv_init (c0 wd : Bool) (ws : List DoWork) :
    OpenInv (initSt c0 wd ws) := by
  constructor
  · intro p pr hp hpo
    have : (ws.map (fun b =>
        ({ phase := .start, fd := none, wbeh := b } : Proc)))[p]? =
        (ws[p]?).map (fun b =>
        ({ phase := .start, fd := none, wbeh := b } : Proc)) :=
      List.getElem?_map _ ws p
    rw [show (initSt c0 wd ws).procs = ws.map (fun b =>
        ({ phase := .start, fd := none, wbeh := b } : Proc)) from rfl,
      this] at hp
    cases hb : ws[p]? with
    | none => rw [hb] at hp; exact absurd hp (by simp)
    | some b =>
      rw [hb] at hp
      have := Option.some.inj hp
      subst this
      exact absurd hpo (by simp [postOpenPhase])
  · intro p hp
    rcases hp with h | h <;> exact absurd h (by simp [initSt])

/-- C10: every slow-path invocation opens the lock file for writing
(creating or truncating it) before attempting acquisition — any `flock`
outcome event (acquired or busy) of a process is preceded by an `openE`
event of the same process; the `finally` cleanup unconditionally
attempts the unlink on every exit, whatever the outcome `r` and whether
or not the lock was ever acquired — a process at the with-block exit
(`close r`) reaches `done r` having emitted an `unlinkE` attempt; and,
concretely, a waiter that times out removes (`unlinkE 1 true`) the lock
file still `flock`-held by the working process 0 (`holders 0 = some 0`,
process 0 still in `work`, path gone). -/

theorem slow_path_lock_lifecycle :
    (∀ (cfg : Cfg) (c0 wd : Bool) (ws : List DoWork) (sched : List Nat)
      (p : Nat),
      Ev.flockAcq p ∈ (run cfg c0 wd ws sched).events ∨
        Ev.flockBusy p ∈ (run cfg c0 wd ws sched).events →
      ∃ b, Ev.openE p b ∈ (run cfg c0 wd ws sched).events) ∧
    (∀ (cfg : Cfg) (s : St) (p : Nat) (pr : Proc) (r : Res)
      (sched : List Nat),
      s.procs[p]? = some pr → pr.phase = .close r → 2 ≤ sched.count p →
      ∃ f, Ev.unlinkE p f ∈ (runFrom cfg s sched).events) ∧
    ((run ⟨60, 30⟩ false false [DoWork.succeeds, DoWork.succeeds]
        [0, 0, 0, 0, 0, 1, 1, 1, 1, 1, 1, 1, 1, 1]).path = none ∧
      (run ⟨60, 30⟩ false false [DoWork.succeeds, DoWork.succeeds]
        [0, 0, 0, 0, 0, 1, 1, 1, 1, 1, 1, 1, 1, 1]).holders 0 = some 0 ∧
      (run ⟨60, 30⟩ false false [DoWork.succeeds, DoWork.succeeds]
        [0, 0, 0, 0, 0, 1, 1, 1, 1, 1, 1, 1, 1, 1]).procs[0]? =
        some { phase := .work, fd := some 0, wbeh := .succeeds } ∧
      Ev.unlinkE 1 true ∈ (run ⟨60, 30⟩ false false [DoWork.succeeds, DoWork.succeeds]
        [0, 0, 0, 0, 0, 1, 1, 1, 1, 1, 1, 1, 1, 1]).events) := by
  refine ⟨?_, ?_, by decide, by decide, by decide, by decide⟩
  · intro cfg c0 wd ws sched p hp
    exact (openInv_runFrom cfg _ sched (openInv_init c0 wd ws)).flockEv p hp
  · intro cfg s p pr r sched hp hph hcnt
    exact runFrom_close_ev cfg s p pr r sched hp hph hcnt

/-- C10 witness: the waiter's `flockBusy` is preceded by its open, and
the timed-out non-holder at cleanup emits its unlink attempt. -/

theorem slow_path_lock_lifecycle_witness :
    (Ev.flockBusy 1 ∈ (run ⟨60, 30⟩ false false [DoWork.succeeds, DoWork.succeeds]
        [0, 0, 0, 0, 0, 1, 1, 1, 1]).events ∧
      ∃ b, Ev.openE 1 b ∈ (run ⟨60, 30⟩ false false [DoWork.succeeds, DoWork.succeeds]
        [0, 0, 0, 0, 0, 1, 1, 1, 1]).events) ∧
    (closerSt.procs[0]? =
        some { phase := .close .errTimeout
               fd := some 0
               wbeh := .succeeds } ∧
      2 ≤ ([0, 0] : List Nat).count 0 ∧
      ∃ f, Ev.unlinkE 0 f ∈ (runFrom ⟨60, 30⟩ closerSt [0, 0]).events) := by
  refine ⟨⟨by decide, ?_⟩, rfl, by decide, ?_⟩
  · exact slow_path_lock_lifecycle.1 ⟨60, 30⟩ false false
      [DoWork.succeeds, DoWork.succeeds]
      [0, 0, 0, 0, 0, 1, 1, 1, 1] 1 (Or.inr (by decide))
  · exact slow_path_lock_lifecycle.2.1 ⟨60, 30⟩ closerSt 0
      { phase := .close .errTimeout, fd := some 0, wbeh := .succeeds }
      .errTimeout [0, 0] rfl rfl (by decide)

theorem fastInv_step (cfg : Cfg) (s : St) (i : Nat) (hF : FastInv s) :
    FastInv (step cfg s i) := by
  cases hpi : s.procs[i]? with
  | none => rw [stepEq_none cfg s i hpi]; exact hF
  | some pr =>
    have hlen : i < s.procs.length := (List.getElem?_eq_some.mp hpi).1
    obtain ⟨hph3, hfd⟩ := hF.phases i pr hpi
    rcases hph3 with hph | hph | hph
    · rw [stepEq_start cfg s i pr hpi hph]
      refine ⟨hF.compl, hF.pathN, hF.inode0, hF.holdersN, ?_, ?_⟩
      · intro p pr' hp'
        rw [lookup_set _ _ _ hlen] at hp'
        split_ifs at hp' with hpe
        · have := Option.some.inj hp'
          subst this
          exact ⟨Or.inr (Or.inl rfl), by simpa using hfd⟩
        · exact hF.phases p pr' hp'
      · intro e he
        rcases List.mem_append.mp he with h | h
        · exact hF.evs e h
        · simp at h
          subst h
          exact Or.inl ⟨i, rfl⟩
    · rw [stepEq_check_t cfg s i pr hpi hph hF.compl]
      refine ⟨hF.compl, hF.pathN, hF.inode0, hF.holdersN, ?_, ?_⟩
      · intro p pr' hp'
        rw [lookup_set _ _ _ hlen] at hp'
        split_ifs at hp' with hpe
        · have := Option.some.inj hp'
          subst this
          exact ⟨Or.inr (Or.inr rfl), by simpa using hfd⟩
        · exact hF.phases p pr' hp'
      · intro e he
        rcases List.mem_append.mp he with h | h
        · exact hF.evs e h
        · rcases List.mem_cons.mp h with h' | h'
          · subst h'
            exact Or.inr (Or.inl ⟨i, rfl⟩)
          · simp at h'
            subst h'
            exact Or.inr (Or.inr ⟨i, rfl⟩)
    · rw [stepEq_done cfg s i pr .ok hpi hph]
      exact hF

theorem fastInv_runFrom (cfg : Cfg) (s : St) (sched : List Nat)
    (hF : FastInv s) : FastInv (runFrom cfg s sched) := by
  induction sched generalizing s with
  | nil => exact hF
  | cons i rest ih => exact ih _ (fastInv_step cfg s i hF)

theorem fastInv_init (wd : Bool) (ws : List DoWork) :
    FastInv (initSt true wd ws) := by
  refine ⟨rfl, rfl, rfl, fun j => rfl, ?_, ?_⟩
  · intro p pr hp
    have : (ws.map (fun b =>
        ({ phase := .start, fd := none, wbeh := b } : Proc)))[p]? =
        (ws[p]?).map (fun b =>
        ({ phase := .start, fd := none, wbeh := b } : Proc)) :=
      List.getElem?_map _ ws p
    rw [show (initSt true wd ws).procs = ws.map (fun b =>
        ({ phase := .start, fd := none, wbeh := b } : Proc)) from rfl,
      this] at hp
    cases hb : ws[p]? with
    | none => rw [hb] at hp; exact absurd hp (by simp)
    | some b =>
      rw [hb] at hp
      have := Option.some.inj hp
      subst this
      exact ⟨Or.inl rfl, rfl⟩
  · intro e he
    exact absurd he (by simp [initSt])

/-- C4 counterexample: the fast path is not free of filesystem side
effects. `work_dir.mkdir(parents=True, exist_ok=True)` runs before the
`is_complete()` check, so an invocation with the work already complete
and the work directory absent creates the directory: the filesystem
changes. -/

theorem fast_path_counterexample :
    (run ⟨60, 30⟩ true false [DoWork.succeeds] [0]).workDir = true ∧
    ¬ (∀ (cfg : Cfg) (wd : Bool) (ws : List DoWork) (sched : List Nat),
        (run cfg true wd ws sched).workDir = wd ∧
        (run cfg true wd ws sched).path = none ∧
        (run cfg true wd ws sched).nextInode = 0) := by
  refine ⟨by decide, fun h => ?_⟩
  exact absurd (h ⟨60, 30⟩ false [DoWork.succeeds] [0]).1 (by decide)

/-- C4 amended: when `is_complete()` is true at entry, every invocation
returns immediately (`start → check → done ok`) with a successful
result, acquires or creates no lock (no lock file, no inode, no flock
holder, no open fd), and the only filesystem side effect is ensuring
`work_dir` exists (`mkdir(parents=True, exist_ok=True)` before the
check); in particular a repeat call after success performs no lock
acquisition. -/

theorem fast_path_amended (cfg : Cfg) (wd : Bool) (ws : List DoWork)
    (sched : List Nat) :
    (run cfg true wd ws sched).path = none ∧
    (run cfg true wd ws sched).nextInode = 0 ∧
    (∀ j, (run cfg true wd ws sched).holders j = none) ∧
    (∀ (p : Nat) (pr : Proc),
      (run cfg true wd ws sched).procs[p]? = some pr →
      (pr.phase = .start ∨ pr.phase = .check ∨ pr.phase = .done .ok) ∧
      pr.fd = none) ∧
    (∀ e ∈ (run cfg true wd ws sched).events,
      (∃ p, e = Ev.mkdirE p) ∨ (∃ p, e = Ev.fastRet p) ∨
        ∃ p, e = Ev.retE p .ok) := by
  have h := fastInv_runFrom cfg _ sched (fastInv_init wd ws)
  exact ⟨h.pathN, h.inode0, h.holdersN, h.phases, h.evs⟩

/-- C4 amended witness: one completed-at-entry process, two steps. -/

theorem fast_path_amended_witness :
    (run ⟨60, 30⟩ true false [DoWork.succeeds] [0, 0]).procs[0]? =
      some { phase := .done .ok, fd := none, wbeh := .succeeds } ∧
    (run ⟨60, 30⟩ true false [DoWork.succeeds] [0, 0]).path = none := by
  exact ⟨by decide,
    (fast_path_amended ⟨60, 30⟩ false [DoWork.succeeds] [0, 0]).1⟩

/-! ### C2: what happens when the holder's `do_work` raises -/

/-- C2: the code diverges from the claim on the OSError path. A single
invocation that acquires the lock, run to completion for each of the
three `do_work` behaviours. When `do_work` succeeds or raises a
non-OSError exception, the event order is mkdir, open (created), flock
acquired, `do_work` called and finished, file closed, lock file
unlinked and found present, and only then the return (`ok`, or the
propagated exception) — the cleanup-before-propagation part of the
claim. But when `do_work` raises an OSError-family exception
(`IOError`), the `except IOError:` lock-busy handler swallows it: the
holder enters the wait loop still holding the flock, polls until
`max_wait` elapses, and the caller receives a `TimeoutError` — the
`do_work` exception is never returned (no `retE 0 errWork` occurs),
contradicting the claim's "any exception raised by do_work()
propagates to the caller". The lock file is still deleted on this exit
path too. -/

theorem do_work_exception_swallowed :
    ((run ⟨60, 30⟩ false false [DoWork.succeeds]
        [0, 0, 0, 0, 0, 0, 0, 0]).events =
      [Ev.mkdirE 0, Ev.openE 0 true, Ev.flockAcq 0, Ev.workStart 0,
       Ev.workEnd 0 true, Ev.closeE 0, Ev.unlinkE 0 true,
       Ev.retE 0 .ok] ∧
      (run ⟨60, 30⟩ false false [DoWork.succeeds]
        [0, 0, 0, 0, 0, 0, 0, 0]).path = none) ∧
    ((run ⟨60, 30⟩ false false [DoWork.raisesOther]
        [0, 0, 0, 0, 0, 0, 0, 0]).events =
      [Ev.mkdirE 0, Ev.openE 0 true, Ev.flockAcq 0, Ev.workStart 0,
       Ev.workEnd 0 false, Ev.closeE 0, Ev.unlinkE 0 true,
       Ev.retE 0 .errWork] ∧
      (run ⟨60, 30⟩ false false [DoWork.raisesOther]
        [0, 0, 0, 0, 0, 0, 0, 0]).path = none) ∧
    ((run ⟨60, 30⟩ false false [DoWork.raisesOS]
        [0, 0, 0, 0, 0, 0, 0, 0, 0, 0, 0]).events =
      [Ev.mkdirE 0, Ev.openE 0 true, Ev.flockAcq 0, Ev.workStart 0,
       Ev.workEnd 0 false, Ev.waitPoll 0 0, Ev.waitPoll 0 30,
       Ev.waitTimeout 0, Ev.closeE 0, Ev.unlinkE 0 true,
       Ev.retE 0 .errTimeout] ∧
      (run ⟨60, 30⟩ false false [DoWork.raisesOS]
        [0, 0, 0, 0, 0, 0, 0, 0, 0, 0, 0]).path = none ∧
      (run ⟨60, 30⟩ false false [DoWork.raisesOS]
        [0, 0, 0, 0, 0, 0, 0, 0, 0, 0, 0]).procs[0]? =
        some { phase := .done .errTimeout
               fd := some 0
               wbeh := .raisesOS } ∧
      Ev.retE 0 .errWork ∉ (run ⟨60, 30⟩ false false [DoWork.raisesOS]
        [0, 0, 0, 0, 0, 0, 0, 0, 0, 0, 0]).events) ∧
    ¬ (∀ wb : DoWork,
        (run ⟨60, 30⟩ false false [wb] (List.replicate 12 0)).path = none ∧
        (wb ≠ DoWork.succeeds →
          ∃ pr, (run ⟨60, 30⟩ false false [wb]
            (List.replicate 12 0)).procs[0]? = some pr ∧
            pr.phase = .done .errWork)) := by
  refine ⟨⟨by decide, by decide⟩, ⟨by decide, by decide⟩,
    ⟨by decide, by decide, by decide, by decide⟩, fun h => ?_⟩
  obtain ⟨pr, hpr, hph⟩ := (h DoWork.raisesOS).2 (by decide)
  have hconc : (run ⟨60, 30⟩ false false [DoWork.raisesOS]
      (List.replicate 12 0)).procs[0]? =
      some { phase := .done .errTimeout
             fd := some 0
             wbeh := .raisesOS } := by decide
  rw [hconc] at hpr
  have hpr' := Option.some.inj hpr
  rw [← hpr'] at hph
  exact absurd hph (by decide)

/-! ### C3: waiter behaviour -/

/-- C3 counterexample: the lock file vanishing while the work is
incomplete does not produce an outcome distinguishable from success:
with the work never complete and the lock present only at the first
poll, the waiter breaks out at `waited = 30` and the caller sees the
same normal return as a successful wait. -/

theorem wait_retry_signal_counterexample :
    waitFor (fun _ => false) (fun w => w == 0) 60 30 =
      WaitOutcome.lockGoneAt 30 ∧
    waitCallerView (waitFor (fun _ => false) (fun w => w == 0) 60 30) =
      WaitRet.normal ∧
    ¬ (∀ (complete lockEx : Nat → Bool) (maxW c w : Nat),
        waitFor complete lockEx maxW c = WaitOutcome.lockGoneAt w →
        waitCallerView (waitFor complete lockEx maxW c) ≠ WaitRet.normal) := by
  refine ⟨by decide, by decide, fun h => ?_⟩
  exact h (fun _ => false) (fun w => w == 0) 60 30 30 (by decide) (by decide)

theorem waitGo_spec (complete lockEx : Nat → Bool) (maxW c : Nat)
    (hc : 0 < c) : ∀ (fuel w0 : Nat),
    maxW ≤ w0 + fuel * c → c ∣ w0 →
    (∀ v, v < w0 → c ∣ v → complete v = false ∧ lockEx v = true) →
    (∀ w, waitGo complete lockEx maxW c fuel w0 = .completedAt w →
      complete w = true ∧ w < maxW ∧ c ∣ w ∧
      ∀ v, v < w → c ∣ v → complete v = false ∧ lockEx v = true) ∧
    (∀ w, waitGo complete lockEx maxW c fuel w0 = .lockGoneAt w →
      complete w = false ∧ lockEx w = false ∧ w < maxW ∧ c ∣ w ∧
      ∀ v, v < w → c ∣ v → complete v = false ∧ lockEx v = true) ∧
    (∀ w, waitGo complete lockEx maxW c fuel w0 = .timeoutAt w →
      maxW ≤ w ∧ c ∣ w ∧
      ∀ v, v < w → c ∣ v → complete v = false ∧ lockEx v = true) := by
  intro fuel
  induction fuel with
  | zero =>
    intro w0 hfuel hd hprior
    refine ⟨?_, ?_, ?_⟩
    · intro w hw
      exact absurd hw (by simp [waitGo])
    · intro w hw
      exact absurd hw (by simp [waitGo])
    · intro w hw
      have : w = w0 := by
        have := hw.symm
        simpa [waitGo] using this
      subst this
      simp only [Nat.mul_comm] at hfuel
      exact ⟨by omega, hd, hprior⟩
  | succ fuel ih =>
    intro w0 hfuel hd hprior
    by_cases hw0 : w0 < maxW
    · cases hcom : complete w0 with
      | true =>
        have hout : waitGo complete lockEx maxW c (fuel + 1) w0 =
            .completedAt w0 := by
          simp [waitGo, hw0, hcom]
        refine ⟨?_, ?_, ?_⟩ <;> intro w hw <;> rw [hout] at hw
        · have : w0 = w := by simpa using hw
          subst this
          exact ⟨hcom, hw0, hd, hprior⟩
        · exact absurd hw (by simp)
        · exact absurd hw (by simp)
      | false =>
        cases hlk : lockEx w0 with
        | false =>
          have hout : waitGo complete lockEx maxW c (fuel + 1) w0 =
              .lockGoneAt w0 := by
            simp [waitGo, hw0, hcom, hlk]
          refine ⟨?_, ?_, ?_⟩ <;> intro w hw <;> rw [hout] at hw
          · exact absurd hw (by simp)
          · have : w0 = w := by simpa using hw
            subst this
            exact ⟨hcom, hlk, hw0, hd, hprior⟩
          · exact absurd hw (by simp)
        | true =>
          have hout : waitGo complete lockEx maxW c (fuel + 1) w0 =
              waitGo complete lockEx maxW c fuel (w0 + c) := by
            simp [waitGo, hw0, hcom, hlk]
          have hfuel' : maxW ≤ (w0 + c) + fuel * c := by
            have : w0 + (fuel + 1) * c = (w0 + c) + fuel * c := by ring
            omega
          have hd' : c ∣ w0 + c := Nat.dvd_add hd (dvd_refl c)
          have hprior' : ∀ v, v < w0 + c → c ∣ v →
              complete v = false ∧ lockEx v = true := by
            intro v hv hdv
            by_cases hvw : v < w0
            · exact hprior v hvw hdv
            · have hge : w0 ≤ v := Nat.le_of_not_lt hvw
              have : c ∣ v - w0 := Nat.dvd_sub' hdv hd
              have hveq : v = w0 := by
                obtain ⟨k, hk⟩ := this
                rcases Nat.eq_zero_or_pos k with hk0 | hk0
                · rw [hk0, Nat.mul_zero] at hk
                  omega
                · have hck : c ≤ c * k := Nat.le_mul_of_pos_right c hk0
                  omega
              subst hveq
              exact ⟨hcom, hlk⟩
          rw [hout]
          exact ih (w0 + c) hfuel' hd' hprior'
    · have hout : waitGo complete lockEx maxW c (fuel + 1) w0 =
          .timeoutAt w0 := by
        simp [waitGo, hw0]
      refine ⟨?_, ?_, ?_⟩ <;> intro w hw <;> rw [hout] at hw
      · exact absurd hw (by simp)
      · exact absurd hw (by simp)
      · have : w0 = w := by simpa using hw
        subst this
        exact ⟨by omega, hd, hprior⟩

/-- C3 amended: the waiter polls `is_complete()` at every multiple of
`poll_interval` (each exit's `waited` value is a multiple of `c`, and
every earlier polled instant saw the work incomplete and the lock file
present); seeing completion returns normally within the bound; the
vanished-lock break also returns normally — the "retry needed" signal
is only a log line, not distinguishable from success in the returned
value; and if `max_wait` elapses with neither condition observed, the
call raises `TimeoutError`. -/

theorem wait_loop_amended (complete lockEx : Nat → Bool) (maxW c : Nat)
    (hc : 0 < c) :
    (∀ w, waitFor complete lockEx maxW c = .completedAt w →
      complete w = true ∧ w < maxW ∧ c ∣ w ∧
      (∀ v, v < w → c ∣ v → complete v = false ∧ lockEx v = true) ∧
      waitCallerView (waitFor complete lockEx maxW c) = .normal) ∧
    (∀ w, waitFor complete lockEx maxW c = .lockGoneAt w →
      complete w = false ∧ lockEx w = false ∧ w < maxW ∧ c ∣ w ∧
      (∀ v, v < w → c ∣ v → complete v = false ∧ lockEx v = true) ∧
      waitCallerView (waitFor complete lockEx maxW c) = .normal) ∧
    (∀ w, waitFor complete lockEx maxW c = .timeoutAt w →
      maxW ≤ w ∧ c ∣ w ∧
      (∀ v, v < w → c ∣ v → complete v = false ∧ lockEx v = true) ∧
      waitCallerView (waitFor complete lockEx maxW c) = .timeoutErr) := by
  have hfuel : maxW ≤ 0 + (maxW + 1) * c := by
    have : maxW + 1 ≤ (maxW + 1) * c := Nat.le_mul_of_pos_right _ hc
    omega
  have h := waitGo_spec complete lockEx maxW c hc (maxW + 1) 0 hfuel
    (Nat.dvd_zero c) (fun v hv _ => absurd hv (by omega))
  refine ⟨fun w hw => ?_, fun w hw => ?_, fun w hw => ?_⟩
  · obtain ⟨h1, h2, h3, h4⟩ := h.1 w hw
    exact ⟨h1, h2, h3, h4, by rw [hw]; rfl⟩
  · obtain ⟨h1, h2, h3, h4, h5⟩ := h.2.1 w hw
    exact ⟨h1, h2, h3, h4, h5, by rw [hw]; rfl⟩
  · obtain ⟨h1, h2, h3⟩ := h.2.2 w hw
    exact ⟨h1, h2, h3, by rw [hw]; rfl⟩

/-- C3 amended witness: completion observed at the second poll. -/

theorem wait_loop_amended_witness :
    (0 : Nat) < 30 ∧
    waitFor (fun w => w == 30) (fun _ => true) 60 30 =
      WaitOutcome.completedAt 30 ∧
    ((fun w : Nat => w == 30) 30 = true ∧ 30 < 60 ∧ (30 : Nat) ∣ 30 ∧
      (∀ v, v < 30 → (30 : Nat) ∣ v →
        (fun w : Nat => w == 30) v = false ∧
        (fun _ : Nat => true) v = true) ∧
      waitCallerView (waitFor (fun w => w == 30) (fun _ => true) 60 30) =
        WaitRet.normal) := by
  refine ⟨by decide, by decide, ?_⟩
  exact (wait_loop_amended (fun w => w == 30) (fun _ => true) 60 30
    (by decide)).1 30 (by decide)

end ClipGen
